import Mathlib

/-!
A shallow embedding of the relational JSON normalizer of this repository:
the naming convention (identifier normalization and deterministic
shortening), the schema configuration consumed by the normalizer
(max nesting, complex-column hints, primary-key hints, propagation
rules), the row-identifier policy, the flattening pass, the recursive
child-table emission, and the propagation-config update triggered by
table updates.

The normalizer implementation itself is not part of the sources given
(only its test suite is), so the operational definitions below are
modelled from the specification document, with the behaviors pinned by
the repository's own test suite (src/tests/common/normalizers/
test_json_relational.py) taken as authoritative where the two differ.
Randomness is modelled explicitly: a run is identified by a seed, and
each fresh random identifier consumes a draw counter.
-/

mutual

/-- JSON-like items: scalars, ordered sequences, and string-keyed mappings. -/
inductive JVal where
  | null : JVal
  | bool (b : Bool) : JVal
  | num (n : Int) : JVal
  | str (s : String) : JVal
  | arr (elems : JList) : JVal
  | obj (fields : JFields) : JVal

/-- A sequence of items. -/
inductive JList where
  | nil : JList
  | cons (head : JVal) (tail : JList) : JList

/-- An ordered mapping from string keys to items. -/
inductive JFields where
  | nil : JFields
  | cons (key : String) (val : JVal) (tail : JFields) : JFields

end

/-- Convert a plain list of items into a JList. -/
def JList.ofList : List JVal → JList
  | [] => JList.nil
  | e :: r => JList.cons e (JList.ofList r)

/-- Convert a JList back into a plain list of items. -/
def JList.toList : JList → List JVal
  | JList.nil => []
  | JList.cons e r => e :: JList.toList r

/-- Convert a plain association list into JFields. -/
def JFields.ofList : List (String × JVal) → JFields
  | [] => JFields.nil
  | (k, v) :: r => JFields.cons k v (JFields.ofList r)

/-- Convert JFields back into a plain association list. -/
def JFields.toList : JFields → List (String × JVal)
  | JFields.nil => []
  | JFields.cons k v r => (k, v) :: JFields.toList r

/-- Sequence literal helper. -/
def jarr (l : List JVal) : JVal := JVal.arr (JList.ofList l)

/-- Mapping literal helper. -/
def jobj (l : List (String × JVal)) : JVal := JVal.obj (JFields.ofList l)

mutual

/-- Structural size of an item, used as recursion fuel. -/
def jsize : JVal → Nat
  | JVal.arr es => 1 + jsizeL es
  | JVal.obj fs => 1 + jsizeF fs
  | _ => 1

/-- Structural size of a sequence of items. -/
def jsizeL : JList → Nat
  | JList.nil => 1
  | JList.cons e r => 1 + jsize e + jsizeL r

/-- Structural size of a mapping. -/
def jsizeF : JFields → Nat
  | JFields.nil => 1
  | JFields.cons _ v r => 1 + jsize v + jsizeF r

end

/-- A row is an insertion-ordered association of column names to values,
with Python-dict update semantics. -/
abbrev Row := List (String × JVal)

/-- Python-dict style association set: replace the value in place if the
key exists (keeping its position), else append at the end. -/
def aset {κ α : Type} [BEq κ] : List (κ × α) → κ → α → List (κ × α)
  | [], k, v => [(k, v)]
  | p :: r, k, v => if p.1 == k then (k, v) :: r else p :: aset r k v

/-- Association lookup (first binding wins, as in a dict with unique keys). -/
def alook {κ α : Type} [BEq κ] : List (κ × α) → κ → Option α
  | [], _ => none
  | p :: r, k => if p.1 == k then some p.2 else alook r k

/-- Python dict.update: fold the entries of the second map into the first. -/
def aupd {κ α : Type} [BEq κ] (l ext : List (κ × α)) : List (κ × α) :=
  ext.foldl (fun acc p => aset acc p.1 p.2) l

/-- Key membership in an association list. -/
def ahas {κ α : Type} [BEq κ] (l : List (κ × α)) (k : κ) : Bool :=
  (alook l k).isSome

/-- Modelled from the spec: naming-convention character substitution
(case rules and replacement of disallowed characters, §4.1). -/
def normChar (c : Char) : Char :=
  if c.isLower ∨ c.isDigit ∨ c = '_' then c
  else if c.isUpper then c.toLower
  else if c = '*' then 'x'
  else '_'

/-- Modelled from the spec: the raw-string to identifier mapping (§4.1),
before length shortening. -/
def snakeIdent (s : String) : String := String.mk (s.data.map normChar)

/-- Modelled from the spec: the content hash backing collision tags,
a pure function over the raw path bytes (design note in §9); the
algorithm itself is a plain rolling hash, swappable per the contract. -/
def hashNat (s : String) : Nat := s.data.foldl (fun a c => a * 31 + c.toNat) 0

/-- Little-endian base-26 rendering of a hash to a fixed number of letters. -/
def tagChars : Nat → Nat → List Char
  | 0, _ => []
  | w + 1, n => Char.ofNat (97 + n % 26) :: tagChars w (n / 26)

/-- Modelled from the spec: the short deterministic collision tag computed
from a hash of the full un-shortened raw path at a fixed collision
probability target (§4.1); fixed width of six letters. -/
def computeTag (raw : String) : String := String.mk (tagChars 6 (hashNat raw))

/-- Modelled from the spec: shorten_identifier (§4.1) — if the normalized
name exceeds the maximum length, truncate and append the deterministic tag. -/
def shortenIdentifier (normName raw : String) (maxLength : Nat) : String :=
  if normName.length ≤ maxLength then normName
  else String.mk (normName.data.take (maxLength - 6)) ++ computeTag raw

/-- Join normalized path segments with the fixed separator (§4.1). -/
def joinPath : List String → String
  | [] => ""
  | [f] => f
  | f :: r => f ++ ("__" ++ joinPath r)

/-- Modelled from the spec: shorten_fragments — build a nested table or
column name from normalized segments, shortening against the joined path. -/
def shortenFragments (maxLength : Nat) (frags : List String) : String :=
  shortenIdentifier (joinPath frags) (joinPath frags) maxLength

/-- A key is blank when it is empty or consists of whitespace only
(the Python-side emptiness check behind the reserved placeholder name). -/
def blankKey (s : String) : Bool :=
  s.data.all (fun c => c == ' ' || c == '\t' || c == '\n' || c == '\r')

/-- Modelled from the spec: normalize_identifier (§4.1) — normalize a raw
string and shorten it, tagging from the raw un-normalized text. -/
def normalizeIdentifier (maxLength : Nat) (raw : String) : String :=
  shortenIdentifier (snakeIdent raw) raw maxLength

/-- Propagation configuration: root-level rules and per-table rules, each a
mapping from source column name to target column name (§4.3). -/
structure PropagationConfig where
  root : List (String × String)
  tables : List (String × List (String × String))
deriving Repr, DecidableEq

/-- The slice of the schema contract consumed by the normalizer (§2, §3):
naming-convention maximum length, maximum nesting depth, propagation
rules, primary-key hints, and complex-column hints. -/
structure SchemaConf where
  maxLength : Nat := 64
  maxNesting : Nat := 1000
  propagation : Option PropagationConfig := none
  pkCols : List String := []
  complexCols : List (String × String) := []
  preferredComplex : List String := []
deriving Repr, DecidableEq

/-- A table definition as seen by update_table (§6): name, optional parent
table, write disposition. -/
structure TableDef where
  name : String
  parent : Option String := none
  writeDisposition : String := "append"
deriving Repr, DecidableEq

/-- Modelled from the spec: a path is kept opaque ("complex") when the
recursion budget is exhausted or the schema declares the column complex
(§4.2 step 2, §3 Recursion/Nesting State). -/
def isComplexType (s : SchemaConf) (table field : String) (lvl : Nat) : Bool :=
  decide (s.maxNesting ≤ lvl) || s.complexCols.contains (table, field)
    || s.preferredComplex.contains field

/-- Per-run normalizer state: the global yield index (for the caller's
descend signal) and the random draw counter. -/
structure NState where
  idx : Nat
  rnd : Nat
deriving Repr, DecidableEq

/-- Modelled from the spec: the deterministic fixed-length content hash of
the identifier hasher (§4.4), idealized as an injective tagged encoding. -/
def digest128 (s : String) : String := "*H*" ++ s

/-- Modelled from the spec: a fresh random identifier (§4.4); the seed
identifies the normalization run, n is the draw counter within the run. -/
def mkRandomId (seed n : Nat) : String := "*R*" ++ toString seed ++ "." ++ toString n

/-- Deterministic child-row identifier: hash of (parent row id, child table
name, list index), as pinned by the tests (_get_child_row_hash). -/
def getChildRowHash (parentRowId childTable : String) (listIdx : Nat) : String :=
  digest128 (parentRowId ++ "_" ++ childTable ++ "_" ++ toString listIdx)

/-- Attach the parent linkage columns to a child row. -/
def linkRow (row : Row) (parentRowId : String) (listIdx : Nat) : Row :=
  aset (aset row "_dlt_parent_id" (JVal.str parentRowId)) "_dlt_list_idx"
    (JVal.num (Int.ofNat listIdx))

/-- A row matches the primary-key hints when some hinted column name is
present among its columns. -/
def pkMatch (s : SchemaConf) (row : Row) : Bool :=
  s.pkCols.any (fun c => ahas row c)

/-- Row-identifier policy, as pinned by the tests: the root row and rows
matching a primary-key hint get a fresh random identifier (and no parent
linkage); other non-root rows get the deterministic child hash and the
parent linkage columns. -/
def addRowId (s : SchemaConf) (seed : Nat) (st : NState) (table : String) (row : Row)
    (parentRowId : Option String) (pos : Option Nat) (lvl : Nat) : String × Row × NState :=
  if lvl = 0 || pkMatch s row then
    let rid := mkRandomId seed st.rnd
    (rid, aset row "_dlt_id" (JVal.str rid), ⟨st.idx, st.rnd + 1⟩)
  else
    let rid := getChildRowHash (parentRowId.getD "") table (pos.getD 0)
    (rid, aset (linkRow row (parentRowId.getD "") (pos.getD 0)) "_dlt_id" (JVal.str rid), st)

/-- The effective (source → target) copy rules for a row of the given table
at the given level: root rules apply only at level 0, table rules always,
with table rules overriding on equal source names (§4.3). -/
def effMappings (s : SchemaConf) (table : String) (lvl : Nat) : List (String × String) :=
  match s.propagation with
  | none => []
  | some cfg =>
    let m0 : List (String × String) := if lvl = 0 then aupd [] cfg.root else []
    match alook cfg.tables table with
    | some tm => aupd m0 tm
    | none => m0

/-- Values to copy down to descendant rows: for each applicable rule whose
source column is present in the row, bind the target name to its value;
absent sources are inert (§4.3, §7). -/
def getPropagatedValues (s : SchemaConf) (table : String) (row : Row) (lvl : Nat) : Row :=
  (effMappings s table lvl).foldl
    (fun acc pr =>
      match alook row pr.1 with
      | some v => aset acc pr.2 v
      | none => acc) []

/-- Flatten a single key/value pair into the accumulated row and the
accumulated lists (§4.2 step 2): scalars and opaque values land on the
current row under the joined column name, nested mappings are flattened
in (descent delegated to recDescend, tied by fuel in flattenRec), lists
are collected for child-table emission and removed from the row. -/
def flattenOne (s : SchemaConf) (table : String)
    (recDescend : Nat → List String → Row × List (List String × List JVal) →
      List (String × JVal) → Row × List (List String × List JVal))
    (lvl : Nat) (path : List String) (acc : Row × List (List String × List JVal))
    (k : String) (v : JVal) : Row × List (List String × List JVal) :=
  let nk := if blankKey k then "_empty" else normalizeIdentifier s.maxLength k
  let nestedName := if path.isEmpty then nk else shortenFragments s.maxLength (path ++ [nk])
  match v with
  | JVal.obj fs =>
    if isComplexType s table nestedName lvl then (aset acc.1 nestedName v, acc.2)
    else recDescend (lvl + 1) (path ++ [nk]) acc (JFields.toList fs)
  | JVal.arr es =>
    if isComplexType s table nestedName lvl then (aset acc.1 nestedName v, acc.2)
    else (acc.1, aset acc.2 (path ++ [nk]) (JList.toList es))
  | _ => (aset acc.1 nestedName v, acc.2)

/-- One pass over the fields of a mapping being flattened, folding
flattenOne over the fields in source order. -/
def flattenStep (s : SchemaConf) (table : String)
    (recDescend : Nat → List String → Row × List (List String × List JVal) →
      List (String × JVal) → Row × List (List String × List JVal)) :
    Nat → List String → Row × List (List String × List JVal) →
      List (String × JVal) → Row × List (List String × List JVal)
  | _, _, acc, [] => acc
  | lvl, path, acc, (k, v) :: rest =>
    flattenStep s table recDescend lvl path
      (flattenOne s table recDescend lvl path acc k v) rest

/-- Fueled closure of flattenStep: nested-mapping descent consumes fuel. -/
def flattenRec (s : SchemaConf) (table : String) :
    Nat → Nat → List String → Row × List (List String × List JVal) →
      List (String × JVal) → Row × List (List String × List JVal)
  | 0 => flattenStep s table (fun _ _ acc _ => acc)
  | fuel + 1 => flattenStep s table (flattenRec s table fuel)

/-- An emitted normalized row: ((table name, parent table name or none), row). -/
abbrev NRow := (String × Option String) × Row

/-- The type of a fueled row-normalization call: state, mapping fields,
extend values, ident path, parent path, parent row id, list position,
nesting level. -/
abbrev RowCall := NState → List (String × JVal) → Row → List String → List String →
  Option String → Option Nat → Nat → List NRow × NState

/-- Build the current level's own row (§4.2 steps 2 and 3): flatten, merge
in propagated values, adopt an explicit identifier or assign one by
policy, compute the values to propagate further, and form the yielded
(TableIdentity, Row) pair. Returns (emitted row, row id, updated extend,
collected lists, state). -/
def processRow (s : SchemaConf) (seed fuel : Nat) (st : NState) (drow : List (String × JVal))
    (extend : Row) (identPath parentPath : List String) (parentRowId : Option String)
    (pos : Option Nat) (lvl : Nat) :
    NRow × String × Row × List (List String × List JVal) × NState :=
  let table := shortenFragments s.maxLength (parentPath ++ identPath)
  let fl := flattenRec s table fuel lvl [] ([], []) drow
  let frow := aupd fl.1 extend
  let step : String × Row × NState :=
    match alook frow "_dlt_id" with
    | some (JVal.str rid) =>
      if rid = "" then addRowId s seed st table frow parentRowId pos lvl
      else (rid, frow, st)
    | _ => addRowId s seed st table frow parentRowId pos lvl
  let extend' := aupd extend (getPropagatedValues s table step.2.1 lvl)
  let parentName := if parentPath.isEmpty then none
    else some (shortenFragments s.maxLength parentPath)
  (((table, parentName), step.2.1), step.1, extend', fl.2, step.2.2)

/-- Wrap a list element for row processing (§4.2 step 4): mappings are used
as-is, nested lists are wrapped under the synthetic "list" segment, and
scalars are wrapped into a "value" mapping. -/
def wrapElem : JVal → List (String × JVal)
  | JVal.obj fs => JFields.toList fs
  | JVal.arr es => [("list", JVal.arr es)]
  | v => [("value", v)]

/-- Emit one child-table row per list element in source order, each element
receiving its 0-based index as list position (§4.2 step 4). -/
def normElemsGo (recRow : RowCall) : NState → Nat → List JVal → Row → List String →
    List String → String → Nat → List NRow × NState
  | st, _, [], _, _, _, _, _ => ([], st)
  | st, idx, e :: rest, extend, identPath, parentPath, parentRowId, lvl =>
    let r1 := recRow st (wrapElem e) extend identPath parentPath (some parentRowId) (some idx) lvl
    let r2 := normElemsGo recRow r1.2 (idx + 1) rest extend identPath parentPath parentRowId lvl
    (r1.1 ++ r2.1, r2.2)

/-- Process the lists collected by flattening, in source order, one nesting
level deeper than the row that owns them. -/
def normListsGo (recRow : RowCall) : NState → List (List String × List JVal) → Row →
    List String → String → Nat → List NRow × NState
  | st, [], _, _, _, _ => ([], st)
  | st, (identPath, content) :: rest, extend, parentPath, parentRowId, lvl =>
    let r1 := normElemsGo recRow st 0 content extend identPath parentPath parentRowId (lvl + 1)
    let r2 := normListsGo recRow r1.2 rest extend parentPath parentRowId lvl
    (r1.1 ++ r2.1, r2.2)

/-- Modelled from the spec: the core recursive normalization of one mapping
(§4.2): emit the current row first, then, unless the caller's descend
signal for this row is false, recursively emit the child-table rows of
every collected list (ancestors before descendants, siblings in source
order). -/
def normalizeRowF (s : SchemaConf) (seed : Nat) (ctl : Nat → Bool) : Nat → RowCall
  | 0 => fun st _ _ _ _ _ _ _ => ([], st)
  | fuel + 1 => fun st drow extend identPath parentPath parentRowId pos lvl =>
    let pr := processRow s seed (fuel + 1) st drow extend identPath parentPath parentRowId pos lvl
    let st' : NState := ⟨pr.2.2.2.2.idx + 1, pr.2.2.2.2.rnd⟩
    if ctl pr.2.2.2.2.idx then
      let cs := normListsGo (normalizeRowF s seed ctl fuel) st' pr.2.2.2.1 pr.2.2.1
        (parentPath ++ identPath) pr.2.1 lvl
      (pr.1 :: cs.1, cs.2)
    else
      ([pr.1], st')

/-- Wrap a non-mapping root item into a single-column mapping (§4.2 step 1). -/
def wrapRoot : JVal → List (String × JVal)
  | JVal.obj fs => JFields.toList fs
  | v => [("value", v)]

/-- Modelled from the spec: normalize_data_item (§6) with the caller's
per-row descend signal (ctl i is the signal answered to the i-th yielded
row; §4.2 step 6). The load id is stamped on the root row, and the root
table name goes through the naming convention like any other segment. -/
def normalizeDataItemCtl (s : SchemaConf) (seed : Nat) (ctl : Nat → Bool) (item : JVal)
    (loadId tableName : String) : List NRow :=
  let drow := aset (wrapRoot item) "_dlt_load_id" (JVal.str loadId)
  let rootIdent := if blankKey tableName then "_empty"
    else normalizeIdentifier s.maxLength tableName
  (normalizeRowF s seed ctl (jsize item + 1) ⟨0, 0⟩ drow [] [rootIdent] [] none none 0).1

/-- normalize_data_item with an always-descend caller. -/
def normalizeDataItem (s : SchemaConf) (seed : Nat) (item : JVal)
    (loadId tableName : String) : List NRow :=
  normalizeDataItemCtl s seed (fun _ => true) item loadId tableName

/-- Modelled from the spec: the propagation-config recompute triggered by
update_table (§4.3, §6): a root table (no parent) whose write disposition
is not "append" gains the rule propagating its generated row identifier
to descendants as the root-id column, merged non-destructively into any
pre-existing rules for that table; other tables change nothing. -/
def updateTablePropagation (cfg : Option PropagationConfig) (t : TableDef) :
    Option PropagationConfig :=
  match t.parent, t.writeDisposition == "append" with
  | none, false =>
    let base := cfg.getD ⟨[], []⟩
    let existing := (alook base.tables t.name).getD []
    some { base with tables := aset base.tables t.name (aset existing "_dlt_id" "_dlt_root_id") }
  | _, _ => cfg

/-- Schema-level update_table: synchronously recompute derived propagation. -/
def updateTable (s : SchemaConf) (t : TableDef) : SchemaConf :=
  { s with propagation := updateTablePropagation s.propagation t }

mutual

/-- Debug rendering of an item. -/
def jshow : JVal → String
  | JVal.null => "null"
  | JVal.bool b => toString b
  | JVal.num n => toString n
  | JVal.str s => "\"" ++ s ++ "\""
  | JVal.arr es => "[" ++ jshowL es ++ "]"
  | JVal.obj fs => "\x7b" ++ jshowF fs ++ "\x7d"

/-- Debug rendering of a sequence. -/
def jshowL : JList → String
  | JList.nil => ""
  | JList.cons e r => jshow e ++ ", " ++ jshowL r

/-- Debug rendering of a mapping. -/
def jshowF : JFields → String
  | JFields.nil => ""
  | JFields.cons k v r => k ++ ": " ++ jshow v ++ ", " ++ jshowF r

end

instance : Repr JVal := ⟨fun v _ => Std.Format.text (jshow v)⟩








/-- Extract a string-valued column from a row. -/
def colStr (r : Row) (k : String) : Option String :=
  match alook r k with
  | some (JVal.str s) => some s
  | _ => none

/-- Extract an integer-valued column from a row. -/
def colInt (r : Row) (k : String) : Option Int :=
  match alook r k with
  | some (JVal.num n) => some n
  | _ => none

/-- The table names of an emitted sequence, in order. -/
def tablesOf (rows : List NRow) : List String := rows.map (fun r => r.1.1)

/-- Parents-before-children: scanning the emitted sequence left to right,
every row whose identity names a parent table is preceded by a row of
that table (tables emitted so far are accumulated in seen). -/
def pbFrom (seen : List String) : List NRow → Prop
  | [] => True
  | r :: rest => (∀ q, r.1.2 = some q → q ∈ seen) ∧ pbFrom (r.1.1 :: seen) rest

mutual

/-- No mapping key anywhere in the item normalizes (by plain character
substitution) to one of the given reserved names. -/
def docAvoid (bad : List String) : JVal → Bool
  | JVal.obj fs => fieldsAvoid bad fs
  | JVal.arr es => elemsAvoid bad es
  | _ => true

/-- docAvoid over a sequence of items. -/
def elemsAvoid (bad : List String) : JList → Bool
  | JList.nil => true
  | JList.cons e r => docAvoid bad e && elemsAvoid bad r

/-- docAvoid over the fields of a mapping. -/
def fieldsAvoid (bad : List String) : JFields → Bool
  | JFields.nil => true
  | JFields.cons k v r => !(bad.contains (snakeIdent k)) && docAvoid bad v && fieldsAvoid bad r

end

/-- All propagation target column names avoid the given reserved names. -/
def targetsAvoid (s : SchemaConf) (bad : List String) : Bool :=
  match s.propagation with
  | none => true
  | some cfg =>
    cfg.root.all (fun p => !(bad.contains p.2))
      && cfg.tables.all (fun tp => tp.2.all (fun p => !(bad.contains p.2)))

/-- All propagation target column names are within the naming length bound. -/
def targetsShort (s : SchemaConf) : Bool :=
  match s.propagation with
  | none => true
  | some cfg =>
    cfg.root.all (fun p => decide (p.2.length ≤ s.maxLength))
      && cfg.tables.all (fun tp => tp.2.all (fun p => decide (p.2.length ≤ s.maxLength)))

/-- No per-table propagation rule writes to the given target column. -/
def noTableTarget (s : SchemaConf) (t : String) : Bool :=
  match s.propagation with
  | none => true
  | some cfg => cfg.tables.all (fun tp => tp.2.all (fun p => p.2 != t))

/-- A character list with no two adjacent underscores. -/
def noAdjU : List Char → Bool
  | [] => true
  | [_] => true
  | a :: b :: r => !(a == '_' && b == '_') && noAdjU (b :: r)

/-- The three reserved linkage-and-identity column names. -/
def reservedLink : List String := ["_dlt_id", "_dlt_parent_id", "_dlt_list_idx"]

/-- Fixture: the document of the spec scenario behind the 7-row example. -/
def c4doc : JVal := jobj [("f", jarr [jobj
  [("l", jarr [JVal.str "a", JVal.str "b", JVal.str "c"]), ("v", JVal.num 120)]])]

/-- Fixture: a schema with a primary-key hint on column id. -/
def c1S : SchemaConf := { pkCols := ["id"] }

/-- Fixture: a document whose root and child rows carry the primary-key
column id and no explicit identifier. -/
def c1doc : JVal := jobj [("id", JVal.str "level0"),
  ("f", jarr [jobj [("id", JVal.str "level1"), ("v", JVal.num 120)]])]

/-- Fixture: a document with an explicit root identifier, a list of scalars
and a list of mappings (the deterministic-child-hash scenario). -/
def c3doc (rid : String) : JVal := jobj [("_dlt_id", JVal.str rid),
  ("f", jarr [jobj [("l", jarr [JVal.str "a", JVal.str "b", JVal.str "c"]), ("v", JVal.num 120),
    ("lo", jarr [jobj [("e", JVal.str "a")], jobj [("e", JVal.str "b")],
      jobj [("e", JVal.str "c")]])]])]

/-- Fixture: propagation configuration with a root rule and table rules for
table__lvl1, including a rule overwriting the root target and a rule with
an absent source column. -/
def c5S : SchemaConf := { propagation := some (PropagationConfig.mk
  [("_dlt_id", "_dlt_root_id"), ("timestamp", "_partition_ts")]
  [("table__lvl1",
    [("vx", "__vx"), ("partition_ovr", "_partition_ts"), ("__not_found", "__not_found")])]) }

/-- Fixture: the two-level document exercising table-rule propagation. -/
def c5doc : JVal := jobj [("_dlt_id", JVal.str "###"), ("timestamp", JVal.str "TS"),
  ("lvl1", jarr [jobj [("vx", JVal.str "ax"), ("partition_ovr", JVal.str "POVR"),
    ("lvl2", jarr [jobj [("_partition_ts", JVal.str "overwritten")]])]])]

/-- Fixture: a document with one level of nested list. -/
def c6doc : JVal := jobj [("f", jarr [JVal.num 1, JVal.num 2])]

/-- Fixture: the control-descent document (a list of mappings with a nested
list of scalars, a list of lists, and a scalar sibling field). -/
def c7doc : JVal := jobj [("f", jarr [jobj
  [("l", jarr [JVal.str "a", JVal.str "b", JVal.str "c"]), ("v", JVal.num 120),
   ("lo", jarr [jarr [jobj [("e", JVal.str "a")], jobj [("e", JVal.str "b")],
     jobj [("e", JVal.str "c")]]])]]), ("g", JVal.str "val")]

/-- Fixture: a naming convention limited to 16 characters. -/
def c8S : SchemaConf := { maxLength := 16 }

/-- Fixture: root-id propagation next to a primary-key hint on id. -/
def c10S : SchemaConf :=
  { propagation := some (PropagationConfig.mk [("_dlt_id", "_dlt_root_id")] []),
    pkCols := ["id"] }

/-- Fixture: a document whose child table carries the primary-key column
while its own child list does not. -/
def c10doc : JVal := jobj [("id", JVal.str "817949077341208606"),
  ("w_id", jarr [jobj [("id", JVal.num 9128918293891111),
    ("wo_id", jarr [JVal.num 1, JVal.num 2, JVal.num 3])]])]

/-- Fixture: the ordering document with flattened intermediate mappings. -/
def c2doc : JVal := jobj [("id", JVal.str "level0"),
  ("f", jarr [jobj [("id", JVal.str "level1"), ("l", jarr [JVal.str "a"]),
    ("o", jarr [jobj [("a", JVal.num 1)]]),
    ("b", jobj [("a", jarr [jobj [("id", JVal.str "level5")]])])]]),
  ("d", jobj [("a", jarr [jobj [("id", JVal.str "level4")]]),
    ("b", jobj [("a", jarr [jobj [("id", JVal.str "level5")]])]), ("c", JVal.str "x")]),
  ("e", jarr [jobj [("o", jarr [jobj [("a", JVal.num 1)]]),
    ("b", jobj [("a", jarr [jobj [("id", JVal.str "level5")]])])]])]

/-- No flattened key of the given plain field list normalizes into the
reserved list. -/
def pairsAvoid (bad : List String) (l : List (String × JVal)) : Bool :=
  l.all (fun p => !(bad.contains (snakeIdent p.1)) && docAvoid bad p.2)

/-- Sanity of a reserved-name list: short names without adjacent
underscores, distinct from the empty-key placeholder. -/
def badOK (bad : List String) : Bool :=
  bad.all (fun b => decide (b.length ≤ 14) && noAdjU b.data && (b != "_empty"))

/-- The extend values bind no reserved column name. -/
def extFree (bad : List String) (E : Row) : Prop :=
  ∀ p ∈ E, p.1 ∉ bad

/-- No primary-key hint names a reserved linkage column. -/
def pkColsOK (s : SchemaConf) : Bool :=
  s.pkCols.all (fun c => !(reservedLink.contains c))

/-- Keys of an association list are pairwise distinct. -/
def akeysNodup {α : Type} (l : List (String × α)) : Prop :=
  (l.map Prod.fst).Nodup

/-- The invariant carried by the extend values for a propagated binding. -/
def extInv (t : String) (val : JVal) (E : Row) : Prop :=
  akeysNodup E ∧ alook E t = some val

/-- The calling-context shape maintained by the recursive normalization:
the root call carries level 0, no parent linkage, an empty parent path and
a nonempty ident path; every descendant call carries a positive level, a
parent row id, a list position and a nonempty parent path. -/
def rctx (identPath parentPath : List String) (parentRowId : Option String)
    (pos : Option Nat) (lvl : Nat) : Prop :=
  (lvl = 0 ∧ parentRowId = none ∧ pos = none ∧ parentPath = [] ∧ identPath ≠ []) ∨
  (lvl ≠ 0 ∧ parentRowId ≠ none ∧ pos ≠ none ∧ parentPath ≠ [])

/-- Row-local statement of the deterministic child-identifier policy: any
emitted row carrying a list-index column also carries a parent-row-id
column, and its identifier is exactly the child hash of (parent row id,
own table name, list index). -/
def childHashInv (r : NRow) : Prop :=
  ∀ i : Int, alook r.2 "_dlt_list_idx" = some (JVal.num i) →
    ∃ pid, alook r.2 "_dlt_parent_id" = some (JVal.str pid) ∧
      alook r.2 "_dlt_id" = some (JVal.str (getChildRowHash pid r.1.1 i.toNat))

/-- Row-local statement of the primary-key linking policy: a row matching a
primary-key hint carries a row identifier but neither linkage column; a
non-root row matching no hint carries both linkage columns. -/
def pkLinkInv (s : SchemaConf) (r : NRow) : Prop :=
  (pkMatch s r.2 = true → alook r.2 "_dlt_parent_id" = none
      ∧ alook r.2 "_dlt_list_idx" = none
      ∧ ∃ rid, alook r.2 "_dlt_id" = some (JVal.str rid))
  ∧ (r.1.2 ≠ none → pkMatch s r.2 = false →
      (∃ pid, alook r.2 "_dlt_parent_id" = some (JVal.str pid))
      ∧ ∃ i : Int, alook r.2 "_dlt_list_idx" = some (JVal.num i))

/-- Row-local statement of the name-length invariant: the row's table name,
its parent table name (when present) and all of its column names are
within the naming convention's configured maximum. -/
def namesShort (s : SchemaConf) (r : NRow) : Prop :=
  r.1.1.length ≤ s.maxLength
  ∧ (∀ q, r.1.2 = some q → q.length ≤ s.maxLength)
  ∧ ∀ p ∈ r.2, p.1.length ≤ s.maxLength

/-- The tables seen after scanning a row sequence, newest first. -/
def pbSeen (seen : List String) (rows : List NRow) : List String :=
  rows.foldl (fun acc r => r.1.1 :: acc) seen

theorem alook_aset_self {α : Type} (l : List (String × α)) (k : String) (v : α) :
    alook (aset l k v) k = some v := by
  induction l with
  | nil => simp [aset, alook]
  | cons p r ih =>
    by_cases h : p.1 = k
    · simp [aset, alook, h]
    · simp [aset, alook, h, ih]

theorem alook_aset_ne {α : Type} (l : List (String × α)) (k k' : String) (v : α)
    (h : k' ≠ k) : alook (aset l k v) k' = alook l k' := by
  induction l with
  | nil => simp [aset, alook, Ne.symm h]
  | cons p r ih =>
    by_cases hp : p.1 = k
    · show alook (if p.1 == k then (k, v) :: r else p :: aset r k v) k' = alook (p :: r) k'
      rw [if_pos (by simpa using hp)]
      simp [alook, Ne.symm h, hp ▸ (Ne.symm h)]
    · show alook (if p.1 == k then (k, v) :: r else p :: aset r k v) k' = alook (p :: r) k'
      rw [if_neg (by simpa using hp)]
      by_cases hp' : p.1 = k'
      · simp [alook, hp']
      · simp [alook, hp', ih]

theorem mem_aset {κ α : Type} [BEq κ] [LawfulBEq κ] {l : List (κ × α)} {k : κ} {v : α}
    {p : κ × α} (h : p ∈ aset l k v) : p = (k, v) ∨ p ∈ l := by
  induction l with
  | nil => simpa [aset] using h
  | cons q r ih =>
    cases hq : (q.1 == k) with
    | true =>
      simp only [aset, hq, if_true] at h
      rcases List.mem_cons.1 h with h1 | h1
      · exact Or.inl h1
      · exact Or.inr (List.mem_cons.2 (Or.inr h1))
    | false =>
      simp only [aset, hq, if_false] at h
      rcases List.mem_cons.1 h with h1 | h1
      · exact Or.inr (List.mem_cons.2 (Or.inl h1))
      · rcases ih h1 with h2 | h2
        · exact Or.inl h2
        · exact Or.inr (List.mem_cons.2 (Or.inr h2))

theorem mem_aset_of_mem {κ α : Type} [BEq κ] [LawfulBEq κ] {l : List (κ × α)} {k : κ} {v : α}
    {p : κ × α} (h : p ∈ l) (hne : p.1 ≠ k) : p ∈ aset l k v := by
  induction l with
  | nil => simp at h
  | cons q r ih =>
    cases hq : (q.1 == k) with
    | true =>
      simp only [aset, hq, if_true]
      rcases List.mem_cons.1 h with h1 | h1
      · exact absurd (h1 ▸ (beq_iff_eq.1 hq)) hne
      · exact List.mem_cons.2 (Or.inr h1)
    | false =>
      simp only [aset, hq, if_false]
      rcases List.mem_cons.1 h with h1 | h1
      · exact List.mem_cons.2 (Or.inl h1)
      · exact List.mem_cons.2 (Or.inr (ih h1))

theorem mem_aupd {κ α : Type} [BEq κ] [LawfulBEq κ] {r E : List (κ × α)} {p : κ × α}
    (h : p ∈ aupd r E) : p ∈ r ∨ p ∈ E := by
  induction E generalizing r with
  | nil => exact Or.inl (by simpa [aupd] using h)
  | cons q E' ih =>
    rcases @ih (aset r q.1 q.2) h with h1 | h1
    · rcases mem_aset h1 with h2 | h2
      · right
        rw [h2]
        exact List.mem_cons_self q E'
      · exact Or.inl h2
    · exact Or.inr (List.mem_cons.2 (Or.inr h1))

theorem alook_none_of_keys {α : Type} {l : List (String × α)} {k : String}
    (h : ∀ p ∈ l, p.1 ≠ k) : alook l k = none := by
  induction l with
  | nil => rfl
  | cons q r ih =>
    have hq : q.1 ≠ k := h q (List.mem_cons_self q r)
    simp only [alook, beq_iff_eq, hq, if_false]
    exact ih (fun p hp => h p (List.mem_cons.2 (Or.inr hp)))

theorem alook_aupd_of_none {α : Type} (r E : List (String × α)) (t : String)
    (h : ∀ p ∈ E, p.1 ≠ t) : alook (aupd r E) t = alook r t := by
  induction E generalizing r with
  | nil => simp [aupd]
  | cons q E' ih =>
    have hq : q.1 ≠ t := h q (List.mem_cons_self q E')
    have h' : ∀ p ∈ E', p.1 ≠ t := fun p hp => h p (List.mem_cons.2 (Or.inr hp))
    show alook (aupd (aset r q.1 q.2) E') t = alook r t
    rw [ih (aset r q.1 q.2) h', alook_aset_ne r q.1 t q.2 (fun he => hq he.symm)]

theorem keys_aset {α : Type} {l : List (String × α)} {k x : String} {v : α}
    (h : x ∈ (aset l k v).map Prod.fst) : x = k ∨ x ∈ l.map Prod.fst := by
  rcases List.mem_map.1 h with ⟨p, hp, hx⟩
  rcases mem_aset hp with h1 | h1
  · left; rw [← hx, h1]
  · right; exact List.mem_map.2 ⟨p, h1, hx⟩

theorem akeysNodup_aset {α : Type} {l : List (String × α)} {k : String} {v : α}
    (h : akeysNodup l) : akeysNodup (aset l k v) := by
  induction l with
  | nil => simp [aset, akeysNodup]
  | cons q r ih =>
    rcases List.nodup_cons.1 h with ⟨hq, hr⟩
    by_cases hqk : q.1 = k
    · simp only [aset, hqk, beq_self_eq_true, if_true, akeysNodup, List.map_cons]
      exact List.nodup_cons.2 ⟨by rw [← hqk]; exact hq, hr⟩
    · simp only [aset, beq_iff_eq, hqk, if_false, akeysNodup, List.map_cons]
      refine List.nodup_cons.2 ⟨fun hx => ?_, ih hr⟩
      rcases keys_aset hx with h1 | h1
      · exact hqk h1
      · exact hq h1

theorem akeysNodup_aupd {α : Type} {l : List (String × α)} (E : List (String × α))
    (h : akeysNodup l) : akeysNodup (aupd l E) := by
  induction E generalizing l with
  | nil => simpa [aupd] using h
  | cons q E' ih => exact ih (akeysNodup_aset h)

theorem alook_aupd_of_alook {α : Type} (r : List (String × α)) {E : List (String × α)}
    {t : String} {v : α} (hNK : akeysNodup E) (h : alook E t = some v) :
    alook (aupd r E) t = some v := by
  induction E generalizing r with
  | nil => simp [alook] at h
  | cons q E' ih =>
    rcases List.nodup_cons.1 hNK with ⟨hq, hE'⟩
    by_cases hqt : q.1 = t
    · have hv : q.2 = v := by simpa [alook, hqt] using h
      have hnone : ∀ p ∈ E', p.1 ≠ t := by
        intro p hp he
        have hmem : p.1 ∈ List.map Prod.fst E' := List.mem_map.2 ⟨p, hp, rfl⟩
        rw [he, ← hqt] at hmem
        exact hq hmem
      show alook (aupd (aset r q.1 q.2) E') t = some v
      rw [alook_aupd_of_none _ _ _ hnone, hqt, hv, alook_aset_self]
    · have h' : alook E' t = some v := by simpa [alook, hqt] using h
      exact ih (aset r q.1 q.2) hE' h'

theorem alook_mem {α : Type} {l : List (String × α)} {t : String} {v : α}
    (h : alook l t = some v) : (t, v) ∈ l := by
  induction l with
  | nil => simp [alook] at h
  | cons q r ih =>
    by_cases hq : q.1 = t
    · have hv : q.2 = v := by simpa [alook, hq] using h
      have he : (t, v) = q := by rw [← hq, ← hv]
      rw [he]
      exact List.mem_cons_self q r
    · exact List.mem_cons.2 (Or.inr (ih (by simpa [alook, hq] using h)))

theorem mem_aupd_keys {α : Type} {r E : List (String × α)} {p : String × α}
    (h : p ∈ aupd r E) : p.1 ∈ r.map Prod.fst ∨ p.1 ∈ E.map Prod.fst := by
  induction E generalizing r with
  | nil => exact Or.inl (List.mem_map.2 ⟨p, by simpa [aupd] using h, rfl⟩)
  | cons q E' ih =>
    rcases @ih (aset r q.1 q.2) h with h1 | h1
    · rcases keys_aset h1 with h2 | h2
      · right
        rw [List.map_cons, h2]
        exact List.mem_cons_self q.1 _
      · exact Or.inl h2
    · right
      rw [List.map_cons]
      exact List.mem_cons.2 (Or.inr h1)

theorem tagChars_length (w n : Nat) : (tagChars w n).length = w := by
  induction w generalizing n with
  | zero => simp [tagChars]
  | succ w' ih => simp [tagChars, ih]

theorem computeTag_length (raw : String) : (computeTag raw).length = 6 := by
  show (String.mk (tagChars 6 (hashNat raw))).length = 6
  have : (String.mk (tagChars 6 (hashNat raw))).length = (tagChars 6 (hashNat raw)).length := rfl
  rw [this, tagChars_length]

theorem shortenIdentifier_length_le (n raw : String) (maxL : Nat) (h : 6 ≤ maxL) :
    (shortenIdentifier n raw maxL).length ≤ maxL := by
  by_cases hl : n.length ≤ maxL
  · simp [shortenIdentifier, hl]
  · simp only [shortenIdentifier, hl, if_false]
    rw [String.length_append, computeTag_length]
    have hmk : (String.mk (n.data.take (maxL - 6))).length = (n.data.take (maxL - 6)).length := rfl
    rw [hmk, List.length_take]
    omega

theorem shortenIdentifier_of_long (n raw : String) (maxL : Nat) (h : maxL < n.length) :
    shortenIdentifier n raw maxL = String.mk (n.data.take (maxL - 6)) ++ computeTag raw := by
  simp [shortenIdentifier, Nat.not_le.2 h]

theorem shortenIdentifier_length_of_long (n raw : String) (maxL : Nat) (h6 : 6 ≤ maxL)
    (h : maxL < n.length) : (shortenIdentifier n raw maxL).length = maxL := by
  rw [shortenIdentifier_of_long n raw maxL h]
  rw [String.length_append, computeTag_length]
  have hmk : (String.mk (n.data.take (maxL - 6))).length = (n.data.take (maxL - 6)).length := rfl
  rw [hmk, List.length_take]
  have : n.length = n.data.length := rfl
  omega

theorem shortenIdentifier_ne_of_tag_ne (n1 r1 n2 r2 : String) (maxL : Nat)
    (h6 : 6 ≤ maxL) (h1 : maxL < n1.length) (h2 : maxL < n2.length)
    (ht : computeTag r1 ≠ computeTag r2) :
    shortenIdentifier n1 r1 maxL ≠ shortenIdentifier n2 r2 maxL := by
  rw [shortenIdentifier_of_long n1 r1 maxL h1, shortenIdentifier_of_long n2 r2 maxL h2]
  intro he
  have hdata : (n1.data.take (maxL - 6)) ++ (computeTag r1).data
      = (n2.data.take (maxL - 6)) ++ (computeTag r2).data := congrArg String.data he
  have hlen : (n1.data.take (maxL - 6)).length = (n2.data.take (maxL - 6)).length := by
    rw [List.length_take, List.length_take]
    have e1 : n1.length = n1.data.length := rfl
    have e2 : n2.length = n2.data.length := rfl
    omega
  have := (List.append_inj hdata hlen).2
  exact ht (by apply congrArg String.mk this)

/-- C4: normalizing the document with one list of mappings, an inner list of
scalars l and a scalar field v, under root table "table" and unrestricted
nesting, does NOT yield 7 rows: the run produces exactly 5 rows (the claim
itself enumerates only root, one table__f row and three table__f__l rows). -/
theorem C4_counterexample :
    (normalizeDataItem {} 0 c4doc "load1" "table").length ≠ 7 := by decide

/-- C4 (amended): the run yields exactly 5 rows across table, table__f and
table__f__l (three rows); the three table__f__l rows carry list index
0, 1, 2 with values "a", "b", "c" respectively, and each one's parent row
identifier equals the single table__f row's identifier. -/
theorem C4_amended_thm :
    (normalizeDataItem {} 0 c4doc "load1" "table").length = 5
  ∧ tablesOf (normalizeDataItem {} 0 c4doc "load1" "table")
      = ["table", "table__f", "table__f__l", "table__f__l", "table__f__l"]
  ∧ ((normalizeDataItem {} 0 c4doc "load1" "table").filter
        (fun r => r.1.1 == "table__f__l")).map
      (fun r => (colInt r.2 "_dlt_list_idx", colStr r.2 "value", colStr r.2 "_dlt_parent_id"))
      = [(some 0, some "a", some "*H**R*0.0_table__f_0"),
         (some 1, some "b", some "*H**R*0.0_table__f_0"),
         (some 2, some "c", some "*H**R*0.0_table__f_0")]
  ∧ ((normalizeDataItem {} 0 c4doc "load1" "table").filter
        (fun r => r.1.1 == "table__f")).map (fun r => colStr r.2 "_dlt_id")
      = [some "*H**R*0.0_table__f_0"] :=
  ⟨by decide, by decide, by decide, by decide⟩

/-- C1: rows carrying a declared primary-key column and no explicit
identifier do NOT get a content hash over the primary-key values: on the
document with primary key id = "level0" at the root and id = "level1" in
the child table, the generated identifiers differ between two runs over
identical content, and neither identifier equals the identifier hasher's
digest of the primary-key value concatenation. -/
theorem C1_counterexample :
    ((normalizeDataItem c1S 0 c1doc "L" "table").map (fun r => colStr r.2 "_dlt_id")
      ≠ (normalizeDataItem c1S 1 c1doc "L" "table").map (fun r => colStr r.2 "_dlt_id"))
  ∧ (normalizeDataItem c1S 0 c1doc "L" "table").map (fun r => colStr r.2 "_dlt_id")
      = [some "*R*0.0", some "*R*0.1"]
  ∧ "*R*0.0" ≠ digest128 "level0"
  ∧ "*R*0.1" ≠ digest128 "level1" :=
  ⟨by decide, by decide, by decide, by decide⟩

/-- C1 (amended): a normalized row whose source mapping carries no explicit
identifier field and whose table has a declared primary key receives a
fresh random identifier on every normalization run (one draw per such
row), not a deterministic content hash of its primary-key values. -/
theorem C1_amended_thm :
    ∀ seed : Nat, (normalizeDataItem c1S seed c1doc "L" "table").map
      (fun r => colStr r.2 "_dlt_id") = [some (mkRandomId seed 0), some (mkRandomId seed 1)] :=
  fun _ => rfl

/-- C8: the deterministic collision tag cannot separate every pair of
distinct full paths: the two distinct raw paths below both exceed the
maximum length 16, collide after truncation, and are still identical
after the tag is appended (their tag hashes collide), so the emitted
column names of two documents with those distinct keys coincide. -/
theorem C8_counterexample :
    "abcdefghijklmxxAa" ≠ "abcdefghijklmxxBB"
  ∧ 16 < (snakeIdent "abcdefghijklmxxAa").length
  ∧ 16 < (snakeIdent "abcdefghijklmxxBB").length
  ∧ String.mk ((snakeIdent "abcdefghijklmxxAa").data.take 10)
      = String.mk ((snakeIdent "abcdefghijklmxxBB").data.take 10)
  ∧ normalizeIdentifier 16 "abcdefghijklmxxAa" = normalizeIdentifier 16 "abcdefghijklmxxBB"
  ∧ (normalizeDataItem c8S 0 (jobj [("abcdefghijklmxxAa", JVal.num 1)]) "L" "s").map
        (fun r => r.2.map Prod.fst)
      = (normalizeDataItem c8S 0 (jobj [("abcdefghijklmxxBB", JVal.num 1)]) "L" "s").map
        (fun r => r.2.map Prod.fst) :=
  ⟨by decide, by decide, by decide, by decide, by decide, by decide⟩

/-- C9: after update_table with a root table whose write disposition is not
"append", the propagation config maps that table to a rule set containing
the generated-row-identifier-to-root-id rule, with all pre-existing rules
for other source columns preserved; an "append" table or a parented table
changes nothing. The four concrete steps mirror the schema-change test:
append adds no config, merge adds the rule, a child table adds nothing,
and merging into explicit rules is non-destructive. -/
theorem C9_thm :
    (∀ (cfg : Option PropagationConfig) (t : TableDef), t.parent = none →
      t.writeDisposition ≠ "append" →
      ∃ m, alook ((updateTablePropagation cfg t).getD (PropagationConfig.mk [] [])).tables
            t.name = some m
        ∧ alook m "_dlt_id" = some "_dlt_root_id"
        ∧ ∀ p ∈ (alook (cfg.getD (PropagationConfig.mk [] [])).tables t.name).getD [],
            p.1 ≠ "_dlt_id" → p ∈ m)
  ∧ (∀ (cfg : Option PropagationConfig) (t : TableDef),
      t.writeDisposition = "append" → updateTablePropagation cfg t = cfg)
  ∧ (∀ (cfg : Option PropagationConfig) (t : TableDef) (pn : String),
      t.parent = some pn → updateTablePropagation cfg t = cfg)
  ∧ updateTable {} (TableDef.mk "table_1" none "append") = ({} : SchemaConf)
  ∧ updateTable {} (TableDef.mk "table_1" none "merge")
      = { propagation := (some
          (PropagationConfig.mk [] [("table_1", [("_dlt_id", "_dlt_root_id")])])) }
  ∧ updateTable { propagation := (some
        (PropagationConfig.mk [] [("table_1", [("_dlt_id", "_dlt_root_id")])])) }
      (TableDef.mk "table_2" (some "table_1") "append")
      = { propagation := (some
          (PropagationConfig.mk [] [("table_1", [("_dlt_id", "_dlt_root_id")])])) }
  ∧ updateTable { propagation := (some
        (PropagationConfig.mk [] [("table_3", [("prop1", "prop2")])])) }
      (TableDef.mk "table_3" none "merge")
      = { propagation := (some
          (PropagationConfig.mk []
            [("table_3", [("prop1", "prop2"), ("_dlt_id", "_dlt_root_id")])])) } := by
  refine ⟨?_, ?_, ?_, by decide, by decide, by decide, by decide⟩
  · intro cfg t hp hw
    have hb : (t.writeDisposition == "append") = false := beq_eq_false_iff_ne.2 hw
    refine ⟨aset ((alook (cfg.getD (PropagationConfig.mk [] [])).tables t.name).getD [])
      "_dlt_id" "_dlt_root_id", ?_, ?_, ?_⟩
    · simp only [updateTablePropagation, hp, hb]
      exact alook_aset_self _ _ _
    · exact alook_aset_self _ _ _
    · intro p hmem hne
      exact mem_aset_of_mem hmem hne
  · intro cfg t hw
    have hb : (t.writeDisposition == "append") = true := beq_iff_eq.2 hw
    simp [updateTablePropagation, hb]
  · intro cfg t pn hp
    simp [updateTablePropagation, hp]

/-- C9 witness: the rule-addition branch of C9 applied to a concrete merge
table over an empty configuration. -/
theorem C9_witness :
    ∃ m, alook ((updateTablePropagation none (TableDef.mk "t" none "merge")).getD
          (PropagationConfig.mk [] [])).tables "t" = some m
      ∧ alook m "_dlt_id" = some "_dlt_root_id"
      ∧ ∀ p ∈ (alook ((none : Option PropagationConfig).getD
            (PropagationConfig.mk [] [])).tables "t").getD [],
          p.1 ≠ "_dlt_id" → p ∈ m :=
  C9_thm.1 none (TableDef.mk "t" none "merge") rfl (by decide)

theorem flattenStep_lists_of_max0 (s : SchemaConf) (table : String)
    (rd : Nat → List String → Row × List (List String × List JVal) →
      List (String × JVal) → Row × List (List String × List JVal))
    (hmax : s.maxNesting = 0) :
    ∀ (fields : List (String × JVal)) (lvl : Nat) (path : List String)
      (acc : Row × List (List String × List JVal)),
      (flattenStep s table rd lvl path acc fields).2 = acc.2 := by
  intro fields
  induction fields with
  | nil =>
    intro lvl path acc
    rfl
  | cons kv rest ih =>
    intro lvl path acc
    obtain ⟨k, v⟩ := kv
    have hc : ∀ n l, isComplexType s table n l = true := by
      intro n l
      simp [isComplexType, hmax]
    have hone : (flattenOne s table rd lvl path acc k v).2 = acc.2 := by
      cases v with
      | null => rfl
      | bool b => rfl
      | num n => rfl
      | str c => rfl
      | arr es => simp only [flattenOne, hc, if_true]
      | obj fs => simp only [flattenOne, hc, if_true]
    show (flattenStep s table rd lvl path (flattenOne s table rd lvl path acc k v) rest).2
      = acc.2
    rw [ih lvl path _, hone]

theorem flattenRec_lists_of_max0 (s : SchemaConf) (table : String) (hmax : s.maxNesting = 0)
    (fuel lvl : Nat) (path : List String) (acc : Row × List (List String × List JVal))
    (fields : List (String × JVal)) :
    (flattenRec s table fuel lvl path acc fields).2 = acc.2 := by
  cases fuel with
  | zero => exact flattenStep_lists_of_max0 s table _ hmax fields lvl path acc
  | succ fuel' => exact flattenStep_lists_of_max0 s table _ hmax fields lvl path acc

theorem processRow_lists_of_max0 (s : SchemaConf) (hmax : s.maxNesting = 0)
    (seed fuel : Nat) (st : NState) (drow : List (String × JVal)) (extend : Row)
    (identPath parentPath : List String) (parentRowId : Option String)
    (pos : Option Nat) (lvl : Nat) :
    (processRow s seed fuel st drow extend identPath parentPath parentRowId pos lvl).2.2.2.1
      = [] := by
  simp only [processRow]
  exact flattenRec_lists_of_max0 s _ hmax fuel lvl [] ([], []) drow

theorem addRowId_idx (s : SchemaConf) (seed : Nat) (st : NState) (table : String) (row : Row)
    (parentRowId : Option String) (pos : Option Nat) (lvl : Nat) :
    (addRowId s seed st table row parentRowId pos lvl).2.2.idx = st.idx := by
  simp only [addRowId]
  split
  · rfl
  · rfl

theorem processRow_idx (s : SchemaConf) (seed fuel : Nat) (st : NState)
    (drow : List (String × JVal)) (extend : Row) (identPath parentPath : List String)
    (parentRowId : Option String) (pos : Option Nat) (lvl : Nat) :
    (processRow s seed fuel st drow extend identPath parentPath parentRowId pos
      lvl).2.2.2.2.idx = st.idx := by
  simp only [processRow]
  split
  · split
    · exact addRowId_idx s seed st _ _ parentRowId pos lvl
    · rfl
  · exact addRowId_idx s seed st _ _ parentRowId pos lvl

/-- C6: exceeding the maximum nesting depth is never an error and degrades
to opaque retention: with max nesting 0, every document yields exactly one
row (the normalizer is a total function, so no fault is possible); on the
document with one nested list, the single emitted root row retains the
list opaquely (still a list value) and no child-table row is produced,
whereas the same document under unrestricted nesting produces child rows. -/
theorem C6_thm :
    (∀ (s : SchemaConf) (seed : Nat) (item : JVal) (loadId tableName : String),
      (normalizeDataItem { s with maxNesting := 0 } seed item loadId tableName).length = 1)
  ∧ normalizeDataItem { maxNesting := 0 } 0 c6doc "L" "table"
      = [(("table", none), [("f", jarr [JVal.num 1, JVal.num 2]),
          ("_dlt_load_id", JVal.str "L"), ("_dlt_id", JVal.str "*R*0.0")])]
  ∧ (normalizeDataItem {} 0 c6doc "L" "table").length = 3 := by
  refine ⟨?_, rfl, by decide⟩
  intro s seed item loadId tableName
  simp only [normalizeDataItem, normalizeDataItemCtl, normalizeRowF]
  rw [processRow_lists_of_max0 _ rfl]
  simp [normListsGo]

/-- C7: the caller's descend signal controls recursion: for every document,
declining at the very first (root) row makes the run stop after yielding
only the root row (the run equals the first row of the unrestricted run);
on the control-descent document, declining at the root or at the table__f
row prunes everything below, declining at the scalar list row "a" prunes
nothing (its siblings "b", "c" and the rest still follow), and declining
at the list-of-lists placeholder row prunes exactly the inner list rows. -/
theorem C7_thm :
    (∀ (s : SchemaConf) (seed : Nat) (ctl : Nat → Bool) (item : JVal)
      (loadId tableName : String), ctl 0 = false →
      normalizeDataItemCtl s seed ctl item loadId tableName
        = (normalizeDataItem s seed item loadId tableName).take 1
      ∧ (normalizeDataItemCtl s seed ctl item loadId tableName).length = 1)
  ∧ tablesOf (normalizeDataItemCtl {} 0 (fun i => i != 0) c7doc "load_id" "table") = ["table"]
  ∧ tablesOf (normalizeDataItemCtl {} 0 (fun i => i != 1) c7doc "load_id" "table")
      = ["table", "table__f"]
  ∧ tablesOf (normalizeDataItemCtl {} 0 (fun i => i != 2) c7doc "load_id" "table")
      = tablesOf (normalizeDataItem {} 0 c7doc "load_id" "table")
  ∧ (normalizeDataItemCtl {} 0 (fun i => i != 2) c7doc "load_id" "table").map
      (fun r => (r.1.1, colStr r.2 "value"))
      = [("table", none), ("table__f", none), ("table__f__l", some "a"),
         ("table__f__l", some "b"), ("table__f__l", some "c"), ("table__f__lo", none),
         ("table__f__lo__list", none), ("table__f__lo__list", none),
         ("table__f__lo__list", none)]
  ∧ tablesOf (normalizeDataItemCtl {} 0 (fun i => i != 5) c7doc "load_id" "table")
      = ["table", "table__f", "table__f__l", "table__f__l", "table__f__l", "table__f__lo"] := by
  refine ⟨?_, by decide, by decide, by decide, by decide, by decide⟩
  intro s seed ctl item loadId tableName h
  simp only [normalizeDataItemCtl, normalizeDataItem, normalizeRowF]
  rw [processRow_idx, h]
  simp

/-- C7 witness: declining at the root row of a concrete scalar document
leaves exactly the root row. -/
theorem C7_witness :
    normalizeDataItemCtl {} 0 (fun _ => false) (JVal.num 1) "L" "t"
      = (normalizeDataItem {} 0 (JVal.num 1) "L" "t").take 1
    ∧ (normalizeDataItemCtl {} 0 (fun _ => false) (JVal.num 1) "L" "t").length = 1 :=
  C7_thm.1 {} 0 (fun _ => false) (JVal.num 1) "L" "t" rfl

theorem gpv_aux_nodup (maps : List (String × String)) (row : Row) (acc : Row)
    (h : akeysNodup acc) :
    akeysNodup (maps.foldl (fun acc pr =>
      match alook row pr.1 with
      | some v => aset acc pr.2 v
      | none => acc) acc) := by
  induction maps generalizing acc with
  | nil => exact h
  | cons q maps' ih =>
    show akeysNodup (maps'.foldl _ (match alook row q.1 with
      | some v => aset acc q.2 v
      | none => acc))
    cases alook row q.1 with
    | none => exact ih acc h
    | some v => exact ih (aset acc q.2 v) (akeysNodup_aset h)

theorem getPropagatedValues_nodup (s : SchemaConf) (table : String) (row : Row) (lvl : Nat) :
    akeysNodup (getPropagatedValues s table row lvl) :=
  gpv_aux_nodup (effMappings s table lvl) row [] (by simp [akeysNodup])

theorem gpv_aux_mem (maps : List (String × String)) (row : Row) (acc : Row) (p : String × JVal)
    (h : p ∈ maps.foldl (fun acc pr =>
      match alook row pr.1 with
      | some v => aset acc pr.2 v
      | none => acc) acc) :
    p ∈ acc ∨ ∃ pr ∈ maps, p.1 = pr.2 := by
  induction maps generalizing acc with
  | nil => exact Or.inl h
  | cons q maps' ih =>
    have h' : p ∈ maps'.foldl _ (match alook row q.1 with
        | some v => aset acc q.2 v
        | none => acc) := h
    rcases ih _ h' with h1 | h1
    · cases hl : alook row q.1 with
      | none =>
        rw [hl] at h1
        exact Or.inl h1
      | some v =>
        rw [hl] at h1
        rcases mem_aset h1 with h2 | h2
        · exact Or.inr ⟨q, List.mem_cons_self q maps', by rw [h2]⟩
        · exact Or.inl h2
    · rcases h1 with ⟨pr, hpr, he⟩
      exact Or.inr ⟨pr, List.mem_cons.2 (Or.inr hpr), he⟩

theorem mem_getPropagatedValues (s : SchemaConf) (table : String) (row : Row) (lvl : Nat)
    {p : String × JVal} (h : p ∈ getPropagatedValues s table row lvl) :
    ∃ pr ∈ effMappings s table lvl, p.1 = pr.2 := by
  rcases gpv_aux_mem _ row [] p h with h1 | h1
  · simp at h1
  · exact h1

theorem mem_effMappings (s : SchemaConf) (table : String) (lvl : Nat) {pr : String × String}
    (h : pr ∈ effMappings s table lvl) :
    ∃ cfg, s.propagation = some cfg
      ∧ (pr ∈ cfg.root ∨ ∃ tm, alook cfg.tables table = some tm ∧ pr ∈ tm) := by
  unfold effMappings at h
  cases hs : s.propagation with
  | none =>
    rw [hs] at h
    simp at h
  | some cfg =>
    rw [hs] at h
    refine ⟨cfg, rfl, ?_⟩
    replace h : pr ∈ (match alook cfg.tables table with
      | some tm => aupd (if lvl = 0 then aupd [] cfg.root else []) tm
      | none => (if lvl = 0 then aupd ([] : List (String × String)) cfg.root else [])) := h
    cases hl : alook cfg.tables table with
    | none =>
      rw [hl] at h
      by_cases h0 : lvl = 0
      · rw [if_pos h0] at h
        rcases mem_aupd h with h1 | h1
        · simp at h1
        · exact Or.inl h1
      · rw [if_neg h0] at h
        simp at h
    | some tm =>
      rw [hl] at h
      rcases mem_aupd h with h1 | h1
      · by_cases h0 : lvl = 0
        · rw [if_pos h0] at h1
          rcases mem_aupd h1 with h2 | h2
          · simp at h2
          · exact Or.inl h2
        · rw [if_neg h0] at h1
          simp at h1
      · exact Or.inr ⟨tm, rfl, h1⟩

theorem mem_effMappings_pos (s : SchemaConf) (table : String) (lvl : Nat) {pr : String × String}
    (hlvl : lvl ≠ 0) (h : pr ∈ effMappings s table lvl) :
    ∃ cfg tm, s.propagation = some cfg ∧ alook cfg.tables table = some tm ∧ pr ∈ tm := by
  unfold effMappings at h
  cases hs : s.propagation with
  | none =>
    rw [hs] at h
    simp at h
  | some cfg =>
    rw [hs] at h
    replace h : pr ∈ (match alook cfg.tables table with
      | some tm => aupd (if lvl = 0 then aupd [] cfg.root else []) tm
      | none => (if lvl = 0 then aupd ([] : List (String × String)) cfg.root else [])) := h
    rw [if_neg hlvl] at h
    cases hl : alook cfg.tables table with
    | none =>
      rw [hl] at h
      simp at h
    | some tm =>
      rw [hl] at h
      rcases mem_aupd h with h1 | h1
      · simp at h1
      · exact ⟨cfg, tm, rfl, hl, h1⟩

theorem effMappings_target_ne (s : SchemaConf) (table : String) (lvl : Nat) (t : String)
    (hno : noTableTarget s t = true) (hlvl : lvl ≠ 0) :
    ∀ pr ∈ effMappings s table lvl, pr.2 ≠ t := by
  intro pr hpr
  rcases mem_effMappings_pos s table lvl hlvl hpr with ⟨cfg, tm, hs, hl, hmem⟩
  unfold noTableTarget at hno
  rw [hs] at hno
  have htab := (List.all_eq_true.1 hno) (table, tm) (alook_mem hl)
  have := (List.all_eq_true.1 htab) pr hmem
  simpa using this

theorem gpv_target_ne (s : SchemaConf) (table : String) (row : Row) (lvl : Nat) (t : String)
    (hno : noTableTarget s t = true) (hlvl : lvl ≠ 0) :
    ∀ p ∈ getPropagatedValues s table row lvl, p.1 ≠ t := by
  intro p hp
  rcases mem_getPropagatedValues s table row lvl hp with ⟨pr, hpr, he⟩
  rw [he]
  exact effMappings_target_ne s table lvl t hno hlvl pr hpr

theorem extInv_step (s : SchemaConf) (table : String) (frow : Row) (lvl : Nat)
    {t : String} {val : JVal} {E : Row} (hno : noTableTarget s t = true) (hlvl : lvl ≠ 0)
    (hE : extInv t val E) :
    extInv t val (aupd E (getPropagatedValues s table frow lvl)) := by
  refine ⟨akeysNodup_aupd _ hE.1, ?_⟩
  rw [alook_aupd_of_none _ _ _ (gpv_target_ne s table frow lvl t hno hlvl)]
  exact hE.2

theorem processRow_keeps (s : SchemaConf) (seed fuel : Nat) (st : NState)
    (drow : List (String × JVal)) (E : Row) (identPath parentPath : List String)
    (parentRowId : Option String) (pos : Option Nat) (lvl : Nat) {t : String} {val : JVal}
    (h2 : t ≠ "_dlt_id") (h3 : t ≠ "_dlt_parent_id") (h4 : t ≠ "_dlt_list_idx")
    (hE : extInv t val E) :
    alook (processRow s seed fuel st drow E identPath parentPath parentRowId pos
      lvl).1.2 t = some val := by
  simp only [processRow]
  have hfrow : alook (aupd (flattenRec s
      (shortenFragments s.maxLength (parentPath ++ identPath)) fuel lvl [] ([], []) drow).1 E) t
      = some val := alook_aupd_of_alook _ hE.1 hE.2
  split
  · split
    · simp only [addRowId]
      split
      · rw [alook_aset_ne _ _ _ _ h2]
        exact hfrow
      · rw [alook_aset_ne _ _ _ _ h2]
        simp only [linkRow]
        rw [alook_aset_ne _ _ _ _ h4, alook_aset_ne _ _ _ _ h3]
        exact hfrow
    · exact hfrow
  · simp only [addRowId]
    split
    · rw [alook_aset_ne _ _ _ _ h2]
      exact hfrow
    · rw [alook_aset_ne _ _ _ _ h2]
      simp only [linkRow]
      rw [alook_aset_ne _ _ _ _ h4, alook_aset_ne _ _ _ _ h3]
      exact hfrow

theorem normElemsGo_keeps (recRow : RowCall) {t : String} {val : JVal}
    (hrec : ∀ (st : NState) (drow : List (String × JVal)) (E : Row)
      (ip pp : List String) (prid : Option String) (pos : Option Nat) (lvl : Nat),
      1 ≤ lvl → extInv t val E →
      ∀ r ∈ (recRow st drow E ip pp prid pos lvl).1, alook r.2 t = some val) :
    ∀ (elems : List JVal) (st : NState) (idx : Nat) (E : Row) (ip pp : List String)
      (prid : String) (lvl : Nat), 1 ≤ lvl → extInv t val E →
      ∀ r ∈ (normElemsGo recRow st idx elems E ip pp prid lvl).1, alook r.2 t = some val := by
  intro elems
  induction elems with
  | nil =>
    intro st idx E ip pp prid lvl hlvl hE r hr
    simp [normElemsGo] at hr
  | cons e rest ih =>
    intro st idx E ip pp prid lvl hlvl hE r hr
    simp only [normElemsGo] at hr
    rcases List.mem_append.1 hr with h1 | h1
    · exact hrec st (wrapElem e) E ip pp (some prid) (some idx) lvl hlvl hE r h1
    · exact ih _ (idx + 1) E ip pp prid lvl hlvl hE r h1

theorem normListsGo_keeps (recRow : RowCall) {t : String} {val : JVal}
    (hrec : ∀ (st : NState) (drow : List (String × JVal)) (E : Row)
      (ip pp : List String) (prid : Option String) (pos : Option Nat) (lvl : Nat),
      1 ≤ lvl → extInv t val E →
      ∀ r ∈ (recRow st drow E ip pp prid pos lvl).1, alook r.2 t = some val) :
    ∀ (lists : List (List String × List JVal)) (st : NState) (E : Row) (pp : List String)
      (prid : String) (lvl : Nat), extInv t val E →
      ∀ r ∈ (normListsGo recRow st lists E pp prid lvl).1, alook r.2 t = some val := by
  intro lists
  induction lists with
  | nil =>
    intro st E pp prid lvl hE r hr
    simp [normListsGo] at hr
  | cons q rest ih =>
    intro st E pp prid lvl hE r hr
    simp only [normListsGo] at hr
    rcases List.mem_append.1 hr with h1 | h1
    · exact normElemsGo_keeps recRow hrec q.2 st 0 E q.1 pp prid (lvl + 1)
        (Nat.le_add_left 1 lvl) hE r h1
    · exact ih _ E pp prid lvl hE r h1

theorem normalizeRowF_keeps (s : SchemaConf) (seed : Nat) (ctl : Nat → Bool)
    {t : String} {val : JVal} (hno : noTableTarget s t = true)
    (h2 : t ≠ "_dlt_id") (h3 : t ≠ "_dlt_parent_id") (h4 : t ≠ "_dlt_list_idx") :
    ∀ (fuel : Nat) (st : NState) (drow : List (String × JVal)) (E : Row)
      (ip pp : List String) (prid : Option String) (pos : Option Nat) (lvl : Nat),
      1 ≤ lvl → extInv t val E →
      ∀ r ∈ (normalizeRowF s seed ctl fuel st drow E ip pp prid pos lvl).1,
        alook r.2 t = some val := by
  intro fuel
  induction fuel with
  | zero =>
    intro st drow E ip pp prid pos lvl hlvl hE r hr
    simp [normalizeRowF] at hr
  | succ fuel' ih =>
    intro st drow E ip pp prid pos lvl hlvl hE r hr
    simp only [normalizeRowF] at hr
    have hhead := processRow_keeps s seed (fuel' + 1) st drow E ip pp prid pos lvl h2 h3 h4 hE
    by_cases hc : ctl (processRow s seed (fuel' + 1) st drow E ip pp prid pos lvl).2.2.2.2.idx
    · rw [if_pos hc] at hr
      rcases List.mem_cons.1 hr with h1 | h1
      · rw [h1]
        exact hhead
      · have hE' : extInv t val (processRow s seed (fuel' + 1) st drow E ip pp prid pos
            lvl).2.2.1 := by
          simp only [processRow]
          exact extInv_step s _ _ lvl hno (by omega) hE
        exact normListsGo_keeps _ ih _ _ _ _ _ lvl hE' r h1
    · rw [if_neg hc] at hr
      rcases List.mem_cons.1 hr with h1 | h1
      · rw [h1]
        exact hhead
      · simp at h1

theorem normalizeRowF_root_prop (s : SchemaConf) (seed : Nat) (ctl : Nat → Bool)
    {t : String} {val : JVal} (hno : noTableTarget s t = true)
    (h2 : t ≠ "_dlt_id") (h3 : t ≠ "_dlt_parent_id") (h4 : t ≠ "_dlt_list_idx")
    (fuel : Nat) (st : NState) (drow : List (String × JVal)) (ip pp : List String)
    (prid : Option String) (pos : Option Nat) (r0 : NRow) (rest : List NRow)
    (heq : (normalizeRowF s seed ctl (fuel + 1) st drow [] ip pp prid pos 0).1 = r0 :: rest)
    (hval : alook (getPropagatedValues s r0.1.1 r0.2 0) t = some val) :
    ∀ r ∈ rest, alook r.2 t = some val := by
  intro r hr
  simp only [normalizeRowF] at heq
  by_cases hc : ctl (processRow s seed (fuel + 1) st drow [] ip pp prid pos 0).2.2.2.2.idx
    = true
  · rw [if_pos hc] at heq
    injection heq with he1 he2
    rw [← he2] at hr
    refine normListsGo_keeps _
      (fun st' drow' E' ip' pp' prid' pos' lvl' hlvl' hE' =>
        normalizeRowF_keeps s seed ctl hno h2 h3 h4 fuel st' drow' E' ip' pp' prid' pos' lvl'
          hlvl' hE') _ _ _ _ _ 0 ⟨?_, ?_⟩ r hr
    · show akeysNodup (processRow s seed (fuel + 1) st drow [] ip pp prid pos 0).2.2.1
      simp only [processRow]
      exact akeysNodup_aupd _ (by simp [akeysNodup])
    · rw [← he1] at hval
      show alook (processRow s seed (fuel + 1) st drow [] ip pp prid pos 0).2.2.1 t = some val
      simp only [processRow] at hval ⊢
      exact alook_aupd_of_alook [] (getPropagatedValues_nodup _ _ _ _) hval
  · rw [if_neg hc] at heq
    injection heq with he1 he2
    rw [← he2] at hr
    simp at hr

/-- C5: table-specific propagation rules do NOT add their target columns to
rows of that exact table: with the rule (vx → __vx) declared for
table__lvl1, the emitted table__lvl1 row has no __vx column, while the
row of its child table table__lvl1__lvl2 does carry __vx. -/
theorem C5_counterexample :
    ((normalizeDataItem c5S 0 c5doc "L" "table").filter
      (fun r => r.1.1 == "table__lvl1")).map (fun r => colStr r.2 "__vx") = [none]
  ∧ ((normalizeDataItem c5S 0 c5doc "L" "table").filter
      (fun r => r.1.1 == "table__lvl1__lvl2")).map (fun r => colStr r.2 "__vx")
      = [some "ax"] :=
  ⟨by decide, by decide⟩

/-- C5 (amended): a root-level rule (source → target) stamps the target
column, bound to the value the rule extracts from the emitted root row,
onto every non-root row of the run, as long as no table rule re-binds the
same target and the target is none of the reserved linkage columns; the
root row itself is never extended. Table-specific rules read their source
columns from the rows of their table and add the target columns to rows
of that table's descendants (not to the table's own rows), overwriting a
root-propagated target there; a rule whose source column is absent adds
nothing and raises nothing (the normalizer is total). The concrete run
shows: the root row is not extended, every non-root row carries
_dlt_root_id = "###" and _partition_ts (root value "TS" on table__lvl1,
overwritten to "POVR" on table__lvl1__lvl2), __vx lands only on the
descendant table, and __not_found appears nowhere. -/
theorem C5_amended_thm :
    (∀ (s : SchemaConf) (seed : Nat) (item : JVal) (loadId tableName t : String)
      (val : JVal) (r0 : NRow) (rest : List NRow),
      noTableTarget s t = true → t ≠ "_dlt_id" → t ≠ "_dlt_parent_id" →
      t ≠ "_dlt_list_idx" →
      normalizeDataItem s seed item loadId tableName = r0 :: rest →
      alook (getPropagatedValues s r0.1.1 r0.2 0) t = some val →
      ∀ r ∈ rest, alook r.2 t = some val)
  ∧ (normalizeDataItem c5S 0 c5doc "L" "table").map
      (fun r => (r.1.1, colStr r.2 "_dlt_root_id", colStr r.2 "_partition_ts",
        colStr r.2 "__vx", colStr r.2 "__not_found"))
      = [("table", none, none, none, none),
         ("table__lvl1", some "###", some "TS", none, none),
         ("table__lvl1__lvl2", some "###", some "POVR", some "ax", none)] := by
  refine ⟨?_, by decide⟩
  intro s seed item loadId tableName t val r0 rest hno h2 h3 h4 heq hval
  simp only [normalizeDataItem, normalizeDataItemCtl] at heq
  exact normalizeRowF_root_prop s seed (fun _ => true) hno h2 h3 h4 (jsize item) _ _ _ _
    none none r0 rest heq hval

/-- C5 witness: the root rule (_dlt_id → _dlt_root_id) of the concrete
configuration stamps the root identifier "###" onto the table__lvl1 row. -/
theorem C5_witness :
    alook [("vx", JVal.str "ax"), ("partition_ovr", JVal.str "POVR"),
      ("_dlt_root_id", JVal.str "###"), ("_partition_ts", JVal.str "TS"),
      ("_dlt_parent_id", JVal.str "###"), ("_dlt_list_idx", JVal.num 0),
      ("_dlt_id", JVal.str "*H*###_table__lvl1_0")] "_dlt_root_id"
      = some (JVal.str "###") :=
  C5_amended_thm.1 c5S 0 c5doc "L" "table" "_dlt_root_id" (JVal.str "###")
    (("table", none),
      [("_dlt_id", JVal.str "###"), ("timestamp", JVal.str "TS"),
       ("_dlt_load_id", JVal.str "L")])
    [(("table__lvl1", some "table"),
      [("vx", JVal.str "ax"), ("partition_ovr", JVal.str "POVR"),
       ("_dlt_root_id", JVal.str "###"), ("_partition_ts", JVal.str "TS"),
       ("_dlt_parent_id", JVal.str "###"), ("_dlt_list_idx", JVal.num 0),
       ("_dlt_id", JVal.str "*H*###_table__lvl1_0")]),
     (("table__lvl1__lvl2", some "table__lvl1"),
      [("_partition_ts", JVal.str "POVR"), ("_dlt_root_id", JVal.str "###"),
       ("__vx", JVal.str "ax"), ("_dlt_parent_id", JVal.str "*H*###_table__lvl1_0"),
       ("_dlt_list_idx", JVal.num 0),
       ("_dlt_id", JVal.str "*H**H*###_table__lvl1_0_table__lvl1__lvl2_0")])]
    (by decide) (by decide) (by decide) (by decide) rfl rfl _
    (List.mem_cons_self _ _)

theorem contains_false_notin {l : List String} {x : String} (h : l.contains x = false) :
    x ∉ l := by
  have h' : List.elem x l = false := h
  rw [List.elem_eq_mem] at h'
  exact of_decide_eq_false h' 

theorem badOK_len {bad : List String} (hb : badOK bad = true) {b : String} (h : b ∈ bad) :
    b.length ≤ 14 := by
  have := (List.all_eq_true.1 hb) b h
  simp at this
  exact this.1.1

theorem badOK_noAdjU {bad : List String} (hb : badOK bad = true) {b : String} (h : b ∈ bad) :
    noAdjU b.data = true := by
  have := (List.all_eq_true.1 hb) b h
  simp at this
  exact this.1.2

theorem badOK_empty {bad : List String} (hb : badOK bad = true) : "_empty" ∉ bad := by
  intro hm
  have := (List.all_eq_true.1 hb) _ hm
  simp at this

theorem notMem_of_long {bad : List String} (hb : badOK bad = true) {x : String}
    (hx : 15 ≤ x.length) : x ∉ bad := by
  intro hm
  have := badOK_len hb hm
  omega

theorem noAdjU_append_dd (x y : List Char) : noAdjU (x ++ '_' :: '_' :: y) = false := by
  induction x with
  | nil => rfl
  | cons c x' ih =>
    rw [List.cons_append]
    cases hx : x' ++ '_' :: '_' :: y with
    | nil => simp at hx
    | cons b t =>
      rw [hx] at ih
      show (!(c == '_' && b == '_') && noAdjU (b :: t)) = false
      rw [ih, Bool.and_false]

theorem joinPath_data_cons (a : String) (r : List String) (hr : r ≠ []) :
    (joinPath (a :: r)).data = a.data ++ ('_' :: '_' :: (joinPath r).data) := by
  cases r with
  | nil => exact absurd rfl hr
  | cons b r' =>
    show (a ++ ("__" ++ joinPath (b :: r'))).data = _
    rw [String.data_append, String.data_append]
    rfl

theorem joinPath_notin {bad : List String} (hb : badOK bad = true) (path : List String)
    (nk : String) (hpath : path ≠ []) : joinPath (path ++ [nk]) ∉ bad := by
  intro hm
  have hu := badOK_noAdjU hb hm
  cases path with
  | nil => exact hpath rfl
  | cons a p' =>
    rw [List.cons_append] at hu
    rw [joinPath_data_cons a (p' ++ [nk]) (by simp)] at hu
    rw [noAdjU_append_dd] at hu
    exact Bool.false_ne_true hu

theorem shortenFragments_notin {bad : List String} {s : SchemaConf} (hb : badOK bad = true)
    (hml : 15 ≤ s.maxLength) (path : List String) (nk : String) (hpath : path ≠ []) :
    shortenFragments s.maxLength (path ++ [nk]) ∉ bad := by
  unfold shortenFragments
  by_cases hl : (joinPath (path ++ [nk])).length ≤ s.maxLength
  · rw [shortenIdentifier, if_pos hl]
    exact joinPath_notin hb path nk hpath
  · have := shortenIdentifier_length_of_long (joinPath (path ++ [nk]))
      (joinPath (path ++ [nk])) s.maxLength (by omega) (by omega)
    exact notMem_of_long hb (by omega)

theorem normalizeIdentifier_notin {bad : List String} {s : SchemaConf} (hb : badOK bad = true)
    (hml : 15 ≤ s.maxLength) (k : String) (hk : bad.contains (snakeIdent k) = false) :
    normalizeIdentifier s.maxLength k ∉ bad := by
  unfold normalizeIdentifier
  by_cases hl : (snakeIdent k).length ≤ s.maxLength
  · rw [shortenIdentifier, if_pos hl]
    exact contains_false_notin hk
  · have := shortenIdentifier_length_of_long (snakeIdent k) k s.maxLength (by omega) (by omega)
    exact notMem_of_long hb (by omega)

theorem fieldsAvoid_toList {bad : List String} :
    ∀ {fs : JFields}, fieldsAvoid bad fs = true → pairsAvoid bad (JFields.toList fs) = true
  | JFields.nil, _ => rfl
  | JFields.cons k v r, h => by
    simp only [fieldsAvoid, Bool.and_eq_true] at h
    show pairsAvoid bad ((k, v) :: JFields.toList r) = true
    unfold pairsAvoid
    rw [List.all_cons]
    simp only [Bool.and_eq_true]
    exact ⟨⟨h.1.1, h.1.2⟩, fieldsAvoid_toList h.2⟩

theorem elemsAvoid_toList {bad : List String} :
    ∀ {es : JList}, elemsAvoid bad es = true → ∀ e ∈ JList.toList es, docAvoid bad e = true
  | JList.nil, _ => by
    intro e he
    simp [JList.toList] at he
  | JList.cons a r, h => by
    simp only [elemsAvoid, Bool.and_eq_true] at h
    intro e he
    rcases List.mem_cons.1 he with h1 | h1
    · rw [h1]
      exact h.1
    · exact elemsAvoid_toList h.2 e h1

theorem pairsAvoid_wrapElem {bad : List String} {e : JVal} (h : docAvoid bad e = true)
    (hlist : bad.contains "list" = false) (hvalue : bad.contains "value" = false) :
    pairsAvoid bad (wrapElem e) = true := by
  cases e with
  | obj fs =>
    show pairsAvoid bad (JFields.toList fs) = true
    rw [docAvoid] at h
    exact fieldsAvoid_toList h
  | arr es =>
    show pairsAvoid bad [("list", JVal.arr es)] = true
    unfold pairsAvoid
    simp only [List.all_cons, List.all_nil, Bool.and_true, Bool.and_eq_true]
    constructor
    · rw [show snakeIdent "list" = "list" from rfl, hlist]
      rfl
    · exact h
  | null =>
    show pairsAvoid bad [("value", JVal.null)] = true
    unfold pairsAvoid
    simp only [List.all_cons, List.all_nil, Bool.and_true, Bool.and_eq_true]
    constructor
    · rw [show snakeIdent "value" = "value" from rfl, hvalue]
      rfl
    · simp [docAvoid]
  | bool b =>
    show pairsAvoid bad [("value", JVal.bool b)] = true
    unfold pairsAvoid
    simp only [List.all_cons, List.all_nil, Bool.and_true, Bool.and_eq_true]
    constructor
    · rw [show snakeIdent "value" = "value" from rfl, hvalue]
      rfl
    · simp [docAvoid]
  | num n =>
    show pairsAvoid bad [("value", JVal.num n)] = true
    unfold pairsAvoid
    simp only [List.all_cons, List.all_nil, Bool.and_true, Bool.and_eq_true]
    constructor
    · rw [show snakeIdent "value" = "value" from rfl, hvalue]
      rfl
    · simp [docAvoid]
  | str c =>
    show pairsAvoid bad [("value", JVal.str c)] = true
    unfold pairsAvoid
    simp only [List.all_cons, List.all_nil, Bool.and_true, Bool.and_eq_true]
    constructor
    · rw [show snakeIdent "value" = "value" from rfl, hvalue]
      rfl
    · simp [docAvoid]

theorem flattenStep_fold (s : SchemaConf) (table : String)
    (rd : Nat → List String → Row × List (List String × List JVal) →
      List (String × JVal) → Row × List (List String × List JVal))
    (Phi : Row × List (List String × List JVal) → Prop) (C : String × JVal → Prop)
    (hone : ∀ (lvl : Nat) (path : List String) (acc : Row × List (List String × List JVal))
      (kv : String × JVal), Phi acc → C kv →
      Phi (flattenOne s table rd lvl path acc kv.1 kv.2)) :
    ∀ (fields : List (String × JVal)) (lvl : Nat) (path : List String)
      (acc : Row × List (List String × List JVal)),
      Phi acc → (∀ kv ∈ fields, C kv) → Phi (flattenStep s table rd lvl path acc fields) := by
  intro fields
  induction fields with
  | nil =>
    intro lvl path acc hacc _
    exact hacc
  | cons kv rest ih =>
    intro lvl path acc hacc hC
    obtain ⟨k, v⟩ := kv
    show Phi (flattenStep s table rd lvl path (flattenOne s table rd lvl path acc k v) rest)
    exact ih lvl path _ (hone lvl path acc (k, v) hacc (hC (k, v) (List.mem_cons_self _ _)))
      (fun kv hkv => hC kv (List.mem_cons.2 (Or.inr hkv)))

theorem flattenOne_row_avoid {bad : List String} {s : SchemaConf} (table : String)
    (rd : Nat → List String → Row × List (List String × List JVal) →
      List (String × JVal) → Row × List (List String × List JVal))
    (hb : badOK bad = true) (hml : 15 ≤ s.maxLength)
    (hrd : ∀ (lvl' : Nat) (path' : List String) (acc' : Row × List (List String × List JVal))
      (fs' : List (String × JVal)), (∀ p ∈ acc'.1, p.1 ∉ bad) → pairsAvoid bad fs' = true →
      ∀ p ∈ (rd lvl' path' acc' fs').1, p.1 ∉ bad)
    (lvl : Nat) (path : List String) (acc : Row × List (List String × List JVal))
    (k : String) (v : JVal) (hacc : ∀ p ∈ acc.1, p.1 ∉ bad)
    (hk : bad.contains (snakeIdent k) = false) (hv : docAvoid bad v = true) :
    ∀ p ∈ (flattenOne s table rd lvl path acc k v).1, p.1 ∉ bad := by
  have hnk : (if blankKey k then "_empty" else normalizeIdentifier s.maxLength k) ∉ bad := by
    by_cases hbk : blankKey k = true
    · rw [if_pos hbk]
      exact badOK_empty hb
    · rw [if_neg hbk]
      exact normalizeIdentifier_notin hb hml k hk
  have hnn : (if path.isEmpty then
        (if blankKey k then "_empty" else normalizeIdentifier s.maxLength k)
      else shortenFragments s.maxLength
        (path ++ [if blankKey k then "_empty" else normalizeIdentifier s.maxLength k])) ∉ bad := by
    by_cases hp : path.isEmpty = true
    · rw [if_pos hp]
      exact hnk
    · rw [if_neg hp]
      refine shortenFragments_notin hb hml path _ (fun he => hp ?_)
      rw [he]
      rfl
  have hset : ∀ (x : JVal) (p : String × JVal),
      p ∈ aset acc.1 (if path.isEmpty then
        (if blankKey k then "_empty" else normalizeIdentifier s.maxLength k)
      else shortenFragments s.maxLength
        (path ++ [if blankKey k then "_empty" else normalizeIdentifier s.maxLength k])) x →
      p.1 ∉ bad := by
    intro x p hp
    rcases mem_aset hp with h1 | h1
    · rw [h1]
      exact hnn
    · exact hacc p h1
  cases v with
  | null => exact hset _
  | bool b => exact hset _
  | num n => exact hset _
  | str c => exact hset _
  | arr es =>
    clear hnn hset
    simp only [flattenOne]
    revert hnk
    generalize (if blankKey k = true then "_empty" else normalizeIdentifier s.maxLength k) = nk0
    intro hnk0
    by_cases hp : path.isEmpty = true
    · rw [if_pos hp]
      split
      · intro p hmem
        rcases mem_aset hmem with h1 | h1
        · rw [h1]
          exact hnk0
        · exact hacc p h1
      · exact hacc
    · rw [if_neg hp]
      split
      · intro p hmem
        rcases mem_aset hmem with h1 | h1
        · rw [h1]
          exact shortenFragments_notin hb hml path nk0 (fun he => hp (by rw [he]; rfl))
        · exact hacc p h1
      · exact hacc
  | obj fs =>
    clear hnn hset
    simp only [flattenOne]
    revert hnk
    generalize (if blankKey k = true then "_empty" else normalizeIdentifier s.maxLength k) = nk0
    intro hnk0
    by_cases hp : path.isEmpty = true
    · rw [if_pos hp]
      split
      · intro p hmem
        rcases mem_aset hmem with h1 | h1
        · rw [h1]
          exact hnk0
        · exact hacc p h1
      · refine hrd _ _ _ _ hacc ?_
        rw [docAvoid] at hv
        exact fieldsAvoid_toList hv
    · rw [if_neg hp]
      split
      · intro p hmem
        rcases mem_aset hmem with h1 | h1
        · rw [h1]
          exact shortenFragments_notin hb hml path nk0 (fun he => hp (by rw [he]; rfl))
        · exact hacc p h1
      · refine hrd _ _ _ _ hacc ?_
        rw [docAvoid] at hv
        exact fieldsAvoid_toList hv

theorem flattenOne_lists_avoid {bad : List String} {s : SchemaConf} (table : String)
    (rd : Nat → List String → Row × List (List String × List JVal) →
      List (String × JVal) → Row × List (List String × List JVal))
    (hrd : ∀ (lvl' : Nat) (path' : List String) (acc' : Row × List (List String × List JVal))
      (fs' : List (String × JVal)),
      (∀ q ∈ acc'.2, ∀ e ∈ q.2, docAvoid bad e = true) → pairsAvoid bad fs' = true →
      ∀ q ∈ (rd lvl' path' acc' fs').2, ∀ e ∈ q.2, docAvoid bad e = true)
    (lvl : Nat) (path : List String) (acc : Row × List (List String × List JVal))
    (k : String) (v : JVal) (hacc : ∀ q ∈ acc.2, ∀ e ∈ q.2, docAvoid bad e = true)
    (hv : docAvoid bad v = true) :
    ∀ q ∈ (flattenOne s table rd lvl path acc k v).2, ∀ e ∈ q.2, docAvoid bad e = true := by
  cases v with
  | null => exact hacc
  | bool b => exact hacc
  | num n => exact hacc
  | str c => exact hacc
  | arr es =>
    simp only [flattenOne]
    generalize (if blankKey k = true then "_empty" else normalizeIdentifier s.maxLength k) = nk0
    by_cases hp : path.isEmpty = true
    · rw [if_pos hp]
      split
      · exact hacc
      · intro q hq e he
        rcases mem_aset hq with h1 | h1
        · rw [docAvoid] at hv
          refine elemsAvoid_toList hv e ?_
          rw [← show q.2 = JList.toList es from congrArg Prod.snd h1]
          exact he
        · exact hacc q h1 e he
    · rw [if_neg hp]
      split
      · exact hacc
      · intro q hq e he
        rcases mem_aset hq with h1 | h1
        · rw [docAvoid] at hv
          refine elemsAvoid_toList hv e ?_
          rw [← show q.2 = JList.toList es from congrArg Prod.snd h1]
          exact he
        · exact hacc q h1 e he
  | obj fs =>
    simp only [flattenOne]
    generalize (if blankKey k = true then "_empty" else normalizeIdentifier s.maxLength k) = nk0
    by_cases hp : path.isEmpty = true
    · rw [if_pos hp]
      split
      · exact hacc
      · refine hrd _ _ _ _ hacc ?_
        rw [docAvoid] at hv
        exact fieldsAvoid_toList hv
    · rw [if_neg hp]
      split
      · exact hacc
      · refine hrd _ _ _ _ hacc ?_
        rw [docAvoid] at hv
        exact fieldsAvoid_toList hv

theorem flattenRec_row_avoid {bad : List String} {s : SchemaConf} (table : String)
    (hb : badOK bad = true) (hml : 15 ≤ s.maxLength) :
    ∀ (fuel : Nat) (fields : List (String × JVal)) (lvl : Nat) (path : List String)
      (acc : Row × List (List String × List JVal)),
      (∀ p ∈ acc.1, p.1 ∉ bad) → pairsAvoid bad fields = true →
      ∀ p ∈ (flattenRec s table fuel lvl path acc fields).1, p.1 ∉ bad := by
  intro fuel
  induction fuel with
  | zero =>
    intro fields lvl path acc hacc hC
    refine flattenStep_fold s table _ (fun acc => ∀ p ∈ acc.1, p.1 ∉ bad)
      (fun kv => bad.contains (snakeIdent kv.1) = false ∧ docAvoid bad kv.2 = true)
      ?_ fields lvl path acc hacc ?_
    · intro lvl' path' acc' kv hacc' hC'
      exact flattenOne_row_avoid table _ hb hml
        (fun _ _ acc'' _ h _ => h) lvl' path' acc' kv.1 kv.2 hacc' hC'.1 hC'.2
    · intro kv hkv
      have := (List.all_eq_true.1 hC) kv hkv
      simp only [Bool.and_eq_true, Bool.not_eq_true'] at this
      exact this
  | succ fuel' ih =>
    intro fields lvl path acc hacc hC
    refine flattenStep_fold s table _ (fun acc => ∀ p ∈ acc.1, p.1 ∉ bad)
      (fun kv => bad.contains (snakeIdent kv.1) = false ∧ docAvoid bad kv.2 = true)
      ?_ fields lvl path acc hacc ?_
    · intro lvl' path' acc' kv hacc' hC'
      exact flattenOne_row_avoid table _ hb hml
        (fun lvl'' path'' acc'' fs'' h hp => ih fs'' lvl'' path'' acc'' h hp)
        lvl' path' acc' kv.1 kv.2 hacc' hC'.1 hC'.2
    · intro kv hkv
      have := (List.all_eq_true.1 hC) kv hkv
      simp only [Bool.and_eq_true, Bool.not_eq_true'] at this
      exact this

theorem flattenRec_lists_avoid {bad : List String} {s : SchemaConf} (table : String) :
    ∀ (fuel : Nat) (fields : List (String × JVal)) (lvl : Nat) (path : List String)
      (acc : Row × List (List String × List JVal)),
      (∀ q ∈ acc.2, ∀ e ∈ q.2, docAvoid bad e = true) → pairsAvoid bad fields = true →
      ∀ q ∈ (flattenRec s table fuel lvl path acc fields).2, ∀ e ∈ q.2,
        docAvoid bad e = true := by
  intro fuel
  induction fuel with
  | zero =>
    intro fields lvl path acc hacc hC
    refine flattenStep_fold s table _ (fun acc => ∀ q ∈ acc.2, ∀ e ∈ q.2, docAvoid bad e = true)
      (fun kv => docAvoid bad kv.2 = true) ?_ fields lvl path acc hacc ?_
    · intro lvl' path' acc' kv hacc' hC'
      exact flattenOne_lists_avoid table _ (fun _ _ acc'' _ h _ => h) lvl' path' acc'
        kv.1 kv.2 hacc' hC'
    · intro kv hkv
      have := (List.all_eq_true.1 hC) kv hkv
      simp only [Bool.and_eq_true] at this
      exact this.2
  | succ fuel' ih =>
    intro fields lvl path acc hacc hC
    refine flattenStep_fold s table _ (fun acc => ∀ q ∈ acc.2, ∀ e ∈ q.2, docAvoid bad e = true)
      (fun kv => docAvoid bad kv.2 = true) ?_ fields lvl path acc hacc ?_
    · intro lvl' path' acc' kv hacc' hC'
      exact flattenOne_lists_avoid table _
        (fun lvl'' path'' acc'' fs'' h hp => ih fs'' lvl'' path'' acc'' h hp) lvl' path' acc'
        kv.1 kv.2 hacc' hC'
    · intro kv hkv
      have := (List.all_eq_true.1 hC) kv hkv
      simp only [Bool.and_eq_true] at this
      exact this.2

theorem extFree_aupd {bad : List String} {E G : Row} (hE : extFree bad E)
    (hG : ∀ p ∈ G, p.1 ∉ bad) : extFree bad (aupd E G) := by
  intro p hp
  rcases mem_aupd hp with h1 | h1
  · exact hE p h1
  · exact hG p h1

theorem gpv_keys_avoid {bad : List String} (s : SchemaConf) (table : String) (row : Row)
    (lvl : Nat) (hT : targetsAvoid s bad = true) :
    ∀ p ∈ getPropagatedValues s table row lvl, p.1 ∉ bad := by
  intro p hp
  rcases mem_getPropagatedValues s table row lvl hp with ⟨pr, hpr, he⟩
  rcases mem_effMappings s table lvl hpr with ⟨cfg, hs, hroot | ⟨tm, hl, hmem⟩⟩
  · unfold targetsAvoid at hT
    rw [hs] at hT
    simp only [Bool.and_eq_true] at hT
    have := (List.all_eq_true.1 hT.1) pr hroot
    simp only [Bool.not_eq_true'] at this
    rw [he]
    exact contains_false_notin this
  · unfold targetsAvoid at hT
    rw [hs] at hT
    simp only [Bool.and_eq_true] at hT
    have htab := (List.all_eq_true.1 hT.2) (table, tm) (alook_mem hl)
    have := (List.all_eq_true.1 htab) pr hmem
    simp only [Bool.not_eq_true'] at this
    rw [he]
    exact contains_false_notin this

theorem pairsAvoid_aset {bad : List String} {l : List (String × JVal)} {k : String} {v : JVal}
    (h : pairsAvoid bad l = true) (hk : bad.contains (snakeIdent k) = false)
    (hv : docAvoid bad v = true) : pairsAvoid bad (aset l k v) = true := by
  unfold pairsAvoid at h ⊢
  rw [List.all_eq_true] at h ⊢
  intro p hp
  rcases mem_aset hp with h1 | h1
  · rw [h1]
    simp only [Bool.and_eq_true, Bool.not_eq_true']
    exact ⟨hk, hv⟩
  · exact h p h1

theorem pairsAvoid_wrapRoot {bad : List String} {item : JVal} (h : docAvoid bad item = true)
    (hvalue : bad.contains "value" = false) : pairsAvoid bad (wrapRoot item) = true := by
  cases item with
  | obj fs =>
    show pairsAvoid bad (JFields.toList fs) = true
    rw [docAvoid] at h
    exact fieldsAvoid_toList h
  | arr es =>
    show pairsAvoid bad [("value", JVal.arr es)] = true
    unfold pairsAvoid
    simp only [List.all_cons, List.all_nil, Bool.and_true, Bool.and_eq_true]
    constructor
    · rw [show snakeIdent "value" = "value" from rfl, hvalue]
      rfl
    · exact h
  | null =>
    show pairsAvoid bad [("value", JVal.null)] = true
    unfold pairsAvoid
    simp only [List.all_cons, List.all_nil, Bool.and_true, Bool.and_eq_true]
    constructor
    · rw [show snakeIdent "value" = "value" from rfl, hvalue]
      rfl
    · simp [docAvoid]
  | bool b =>
    show pairsAvoid bad [("value", JVal.bool b)] = true
    unfold pairsAvoid
    simp only [List.all_cons, List.all_nil, Bool.and_true, Bool.and_eq_true]
    constructor
    · rw [show snakeIdent "value" = "value" from rfl, hvalue]
      rfl
    · simp [docAvoid]
  | num n =>
    show pairsAvoid bad [("value", JVal.num n)] = true
    unfold pairsAvoid
    simp only [List.all_cons, List.all_nil, Bool.and_true, Bool.and_eq_true]
    constructor
    · rw [show snakeIdent "value" = "value" from rfl, hvalue]
      rfl
    · simp [docAvoid]
  | str c =>
    show pairsAvoid bad [("value", JVal.str c)] = true
    unfold pairsAvoid
    simp only [List.all_cons, List.all_nil, Bool.and_true, Bool.and_eq_true]
    constructor
    · rw [show snakeIdent "value" = "value" from rfl, hvalue]
      rfl
    · simp [docAvoid]

theorem ahas_aset_ne (l : Row) (k c : String) (v : JVal) (h : c ≠ k) :
    ahas (aset l k v) c = ahas l c := by
  unfold ahas
  rw [alook_aset_ne l k c v h]

theorem any_ahas_aset (cols : List String) (row : Row) (k : String) (v : JVal)
    (h : ∀ c ∈ cols, c ≠ k) :
    (cols.any fun c => ahas (aset row k v) c) = cols.any fun c => ahas row c := by
  induction cols with
  | nil => rfl
  | cons c r ih =>
    simp only [List.any_cons]
    rw [ahas_aset_ne row k c v (h c (List.mem_cons_self c r)),
      ih (fun c' hc' => h c' (List.mem_cons.2 (Or.inr hc')))]

theorem pkMatch_aset_reserved (s : SchemaConf) (hpk : pkColsOK s = true) (X : Row)
    (k : String) (hk : k ∈ reservedLink) (v : JVal) :
    pkMatch s (aset X k v) = pkMatch s X := by
  unfold pkMatch
  refine any_ahas_aset s.pkCols X k v (fun c hc hck => ?_)
  unfold pkColsOK at hpk
  have := (List.all_eq_true.1 hpk) c hc
  simp only [Bool.not_eq_true'] at this
  rw [hck] at this
  exact absurd hk (contains_false_notin this)

theorem addRowId_childHash (s : SchemaConf) (seed : Nat) (st : NState) (table : String)
    (row : Row) (prid : Option String) (pos : Option Nat) (lvl : Nat)
    (hli : alook row "_dlt_list_idx" = none)
    (hpi : alook row "_dlt_parent_id" = none) :
    ∀ i : Int, alook (addRowId s seed st table row prid pos lvl).2.1 "_dlt_list_idx"
        = some (JVal.num i) →
      ∃ pid, alook (addRowId s seed st table row prid pos lvl).2.1 "_dlt_parent_id"
          = some (JVal.str pid)
        ∧ alook (addRowId s seed st table row prid pos lvl).2.1 "_dlt_id"
          = some (JVal.str (getChildRowHash pid table i.toNat)) := by
  intro i
  simp only [addRowId]
  split
  · intro hidx
    rw [alook_aset_ne _ _ _ _ (by decide), hli] at hidx
    exact absurd hidx (by simp)
  · intro hidx
    rw [alook_aset_ne _ _ _ _ (by decide)] at hidx
    simp only [linkRow] at hidx
    rw [alook_aset_self] at hidx
    have hi : i = Int.ofNat (pos.getD 0) := by
      injection hidx with h'
      injection h' with h''
      exact h''.symm
    refine ⟨prid.getD "", ?_, ?_⟩
    · rw [alook_aset_ne _ _ _ _ (by decide)]
      simp only [linkRow]
      rw [alook_aset_ne _ _ _ _ (by decide), alook_aset_self]
    · rw [alook_aset_self, hi]
      simp

theorem addRowId_pkLink (s : SchemaConf) (seed : Nat) (st : NState) (table : String)
    (row : Row) (prid : Option String) (pos : Option Nat) (lvl : Nat)
    (hpk : pkColsOK s = true)
    (hli : alook row "_dlt_list_idx" = none)
    (hpi : alook row "_dlt_parent_id" = none) :
    (pkMatch s (addRowId s seed st table row prid pos lvl).2.1 = true →
        alook (addRowId s seed st table row prid pos lvl).2.1 "_dlt_parent_id" = none
        ∧ alook (addRowId s seed st table row prid pos lvl).2.1 "_dlt_list_idx" = none
        ∧ ∃ rid, alook (addRowId s seed st table row prid pos lvl).2.1 "_dlt_id"
            = some (JVal.str rid))
    ∧ (lvl ≠ 0 →
        pkMatch s (addRowId s seed st table row prid pos lvl).2.1 = false →
        (∃ pid, alook (addRowId s seed st table row prid pos lvl).2.1 "_dlt_parent_id"
            = some (JVal.str pid))
        ∧ ∃ i : Int, alook (addRowId s seed st table row prid pos lvl).2.1 "_dlt_list_idx"
            = some (JVal.num i)) := by
  simp only [addRowId]
  split
  · rename_i h0
    constructor
    · intro _
      refine ⟨?_, ?_, ⟨mkRandomId seed st.rnd, alook_aset_self _ _ _⟩⟩
      · rw [alook_aset_ne _ _ _ _ (by decide)]
        exact hpi
      · rw [alook_aset_ne _ _ _ _ (by decide)]
        exact hli
    · intro hlvl hpkf
      rw [pkMatch_aset_reserved s hpk row "_dlt_id" (by decide)] at hpkf
      simp only [Bool.or_eq_true, decide_eq_true_eq] at h0
      rcases h0 with h0 | h0
      · exact absurd h0 hlvl
      · rw [h0] at hpkf
        exact Bool.noConfusion hpkf
  · rename_i h0
    have hpkf : pkMatch s row = false := by
      simp only [Bool.or_eq_true, decide_eq_true_eq] at h0
      cases hpm : pkMatch s row with
      | false => rfl
      | true => exact absurd (Or.inr hpm) h0
    have hne : pkMatch s (aset (linkRow row (prid.getD "") (pos.getD 0)) "_dlt_id"
        (JVal.str (getChildRowHash (prid.getD "") table (pos.getD 0)))) = pkMatch s row := by
      simp only [linkRow]
      rw [pkMatch_aset_reserved s hpk _ "_dlt_id" (by decide),
        pkMatch_aset_reserved s hpk _ "_dlt_list_idx" (by decide),
        pkMatch_aset_reserved s hpk _ "_dlt_parent_id" (by decide)]
    constructor
    · intro hcon
      rw [hne, hpkf] at hcon
      exact Bool.noConfusion hcon
    · intro _ _
      constructor
      · refine ⟨prid.getD "", ?_⟩
        rw [alook_aset_ne _ _ _ _ (by decide)]
        simp only [linkRow]
        rw [alook_aset_ne _ _ _ _ (by decide), alook_aset_self]
      · refine ⟨Int.ofNat (pos.getD 0), ?_⟩
        rw [alook_aset_ne _ _ _ _ (by decide)]
        simp only [linkRow]
        rw [alook_aset_self]

theorem processRow_childHashInv (s : SchemaConf) (seed fuel : Nat) (st : NState)
    (drow : List (String × JVal)) (E : Row) (ip pp : List String)
    (prid : Option String) (pos : Option Nat) (lvl : Nat) (hml : 15 ≤ s.maxLength)
    (hdrow : pairsAvoid reservedLink drow = true) (hE : extFree reservedLink E) :
    childHashInv (processRow s seed fuel st drow E ip pp prid pos lvl).1 := by
  have hb : badOK reservedLink = true := by decide
  have hfl := flattenRec_row_avoid
    (shortenFragments s.maxLength (pp ++ ip)) hb hml fuel drow lvl [] ([], [])
    (fun p hp => absurd hp (List.not_mem_nil p)) hdrow
  have hfrow : ∀ p ∈ aupd (flattenRec s (shortenFragments s.maxLength (pp ++ ip)) fuel lvl []
      ([], []) drow).1 E, p.1 ∉ reservedLink := by
    intro p hp
    rcases mem_aupd hp with h1 | h1
    · exact hfl p h1
    · exact hE p h1
  have hid : alook (aupd (flattenRec s (shortenFragments s.maxLength (pp ++ ip)) fuel lvl []
      ([], []) drow).1 E) "_dlt_id" = none := by
    refine alook_none_of_keys (fun p hp he => hfrow p hp ?_)
    rw [he]
    exact List.mem_cons_self _ _
  have hli : alook (aupd (flattenRec s (shortenFragments s.maxLength (pp ++ ip)) fuel lvl []
      ([], []) drow).1 E) "_dlt_list_idx" = none := by
    refine alook_none_of_keys (fun p hp he => hfrow p hp ?_)
    rw [he]
    decide
  have hpi : alook (aupd (flattenRec s (shortenFragments s.maxLength (pp ++ ip)) fuel lvl []
      ([], []) drow).1 E) "_dlt_parent_id" = none := by
    refine alook_none_of_keys (fun p hp he => hfrow p hp ?_)
    rw [he]
    decide
  simp only [childHashInv, processRow]
  intro i hidx
  rw [hid] at hidx ⊢
  exact addRowId_childHash s seed st (shortenFragments s.maxLength (pp ++ ip)) _
    prid pos lvl hli hpi i hidx

theorem processRow_pkLinkInv (s : SchemaConf) (seed fuel : Nat) (st : NState)
    (drow : List (String × JVal)) (E : Row) (ip pp : List String)
    (prid : Option String) (pos : Option Nat) (lvl : Nat) (hml : 15 ≤ s.maxLength)
    (hpk : pkColsOK s = true)
    (hdrow : pairsAvoid reservedLink drow = true) (hE : extFree reservedLink E)
    (hctx : rctx ip pp prid pos lvl) :
    pkLinkInv s (processRow s seed fuel st drow E ip pp prid pos lvl).1 := by
  have hb : badOK reservedLink = true := by decide
  have hfl := flattenRec_row_avoid
    (shortenFragments s.maxLength (pp ++ ip)) hb hml fuel drow lvl [] ([], [])
    (fun p hp => absurd hp (List.not_mem_nil p)) hdrow
  have hfrow : ∀ p ∈ aupd (flattenRec s (shortenFragments s.maxLength (pp ++ ip)) fuel lvl []
      ([], []) drow).1 E, p.1 ∉ reservedLink := by
    intro p hp
    rcases mem_aupd hp with h1 | h1
    · exact hfl p h1
    · exact hE p h1
  have hid : alook (aupd (flattenRec s (shortenFragments s.maxLength (pp ++ ip)) fuel lvl []
      ([], []) drow).1 E) "_dlt_id" = none := by
    refine alook_none_of_keys (fun p hp he => hfrow p hp ?_)
    rw [he]
    exact List.mem_cons_self _ _
  have hli : alook (aupd (flattenRec s (shortenFragments s.maxLength (pp ++ ip)) fuel lvl []
      ([], []) drow).1 E) "_dlt_list_idx" = none := by
    refine alook_none_of_keys (fun p hp he => hfrow p hp ?_)
    rw [he]
    decide
  have hpi : alook (aupd (flattenRec s (shortenFragments s.maxLength (pp ++ ip)) fuel lvl []
      ([], []) drow).1 E) "_dlt_parent_id" = none := by
    refine alook_none_of_keys (fun p hp he => hfrow p hp ?_)
    rw [he]
    decide
  have hA := addRowId_pkLink s seed st (shortenFragments s.maxLength (pp ++ ip))
    (aupd (flattenRec s (shortenFragments s.maxLength (pp ++ ip)) fuel lvl []
      ([], []) drow).1 E) prid pos lvl hpk hli hpi
  simp only [pkLinkInv, processRow]
  rw [hid]
  constructor
  · exact hA.1
  · intro hpn hpkf
    rcases hctx with ⟨hlvl0, _, _, hppn, _⟩ | ⟨hlvl, _, _, hpp'⟩
    · subst hppn
      exact absurd rfl hpn
    · exact hA.2 hlvl hpkf

theorem normElemsGo_all {bad : List String} (recRow : RowCall) (P : NRow → Prop)
    (hrec : ∀ (st : NState) (drow : List (String × JVal)) (E : Row) (ip pp : List String)
      (prid : Option String) (pos : Option Nat) (lvl : Nat),
      pairsAvoid bad drow = true → extFree bad E → rctx ip pp prid pos lvl →
      ∀ r ∈ (recRow st drow E ip pp prid pos lvl).1, P r)
    (hlist : bad.contains "list" = false) (hvalue : bad.contains "value" = false) :
    ∀ (elems : List JVal) (st : NState) (idx : Nat) (E : Row) (ip pp : List String)
      (prid : String) (lvl : Nat),
      (∀ e ∈ elems, docAvoid bad e = true) → extFree bad E → lvl ≠ 0 → pp ≠ [] →
      ∀ r ∈ (normElemsGo recRow st idx elems E ip pp prid lvl).1, P r := by
  intro elems
  induction elems with
  | nil =>
    intro st idx E ip pp prid lvl _ _ _ _ r hr
    simp [normElemsGo] at hr
  | cons e rest ih =>
    intro st idx E ip pp prid lvl hdoc hE hlvl hpp r hr
    simp only [normElemsGo] at hr
    rcases List.mem_append.1 hr with h1 | h1
    · exact hrec _ (wrapElem e) E ip pp (some prid) (some idx) lvl
        (pairsAvoid_wrapElem (hdoc e (List.mem_cons_self e rest)) hlist hvalue) hE
        (Or.inr ⟨hlvl, fun h => Option.noConfusion h, fun h => Option.noConfusion h, hpp⟩) r h1
    · exact ih _ (idx + 1) E ip pp prid lvl
        (fun e' he' => hdoc e' (List.mem_cons.2 (Or.inr he'))) hE hlvl hpp r h1

theorem normListsGo_all {bad : List String} (recRow : RowCall) (P : NRow → Prop)
    (hrec : ∀ (st : NState) (drow : List (String × JVal)) (E : Row) (ip pp : List String)
      (prid : Option String) (pos : Option Nat) (lvl : Nat),
      pairsAvoid bad drow = true → extFree bad E → rctx ip pp prid pos lvl →
      ∀ r ∈ (recRow st drow E ip pp prid pos lvl).1, P r)
    (hlist : bad.contains "list" = false) (hvalue : bad.contains "value" = false) :
    ∀ (lists : List (List String × List JVal)) (st : NState) (E : Row) (pp : List String)
      (prid : String) (lvl : Nat),
      (∀ q ∈ lists, ∀ e ∈ q.2, docAvoid bad e = true) → extFree bad E → pp ≠ [] →
      ∀ r ∈ (normListsGo recRow st lists E pp prid lvl).1, P r := by
  intro lists
  induction lists with
  | nil =>
    intro st E pp prid lvl _ _ _ r hr
    simp [normListsGo] at hr
  | cons q rest ih =>
    intro st E pp prid lvl hdoc hE hpp r hr
    simp only [normListsGo] at hr
    rcases List.mem_append.1 hr with h1 | h1
    · exact normElemsGo_all recRow P hrec hlist hvalue q.2 st 0 E q.1 pp prid (lvl + 1)
        (hdoc q (List.mem_cons_self q rest)) hE (Nat.succ_ne_zero lvl) hpp r h1
    · exact ih _ E pp prid lvl (fun q' hq' => hdoc q' (List.mem_cons.2 (Or.inr hq'))) hE hpp r h1

theorem normalizeRowF_all {bad : List String} (s : SchemaConf) (seed : Nat) (ctl : Nat → Bool)
    (P : NRow → Prop)
    (hb : badOK bad = true) (hml : 15 ≤ s.maxLength)
    (hT : targetsAvoid s bad = true)
    (hlist : bad.contains "list" = false) (hvalue : bad.contains "value" = false)
    (hP : ∀ (fuel : Nat) (st : NState) (drow : List (String × JVal)) (E : Row)
      (ip pp : List String) (prid : Option String) (pos : Option Nat) (lvl : Nat),
      pairsAvoid bad drow = true → extFree bad E → rctx ip pp prid pos lvl →
      P (processRow s seed fuel st drow E ip pp prid pos lvl).1) :
    ∀ (fuel : Nat) (st : NState) (drow : List (String × JVal)) (E : Row)
      (ip pp : List String) (prid : Option String) (pos : Option Nat) (lvl : Nat),
      pairsAvoid bad drow = true → extFree bad E → rctx ip pp prid pos lvl →
      ∀ r ∈ (normalizeRowF s seed ctl fuel st drow E ip pp prid pos lvl).1, P r := by
  intro fuel
  induction fuel with
  | zero =>
    intro st drow E ip pp prid pos lvl _ _ _ r hr
    simp [normalizeRowF] at hr
  | succ fuel' ih =>
    intro st drow E ip pp prid pos lvl hdrow hE hctx r hr
    simp only [normalizeRowF] at hr
    by_cases hc : ctl (processRow s seed (fuel' + 1) st drow E ip pp prid pos lvl).2.2.2.2.idx
    · rw [if_pos hc] at hr
      rcases List.mem_cons.1 hr with h1 | h1
      · rw [h1]
        exact hP (fuel' + 1) st drow E ip pp prid pos lvl hdrow hE hctx
      · refine normListsGo_all _ P
          (fun st' drow' E' ip' pp' prid' pos' lvl' h1' h2' h3' =>
            ih st' drow' E' ip' pp' prid' pos' lvl' h1' h2' h3') hlist hvalue
          _ _ _ _ _ lvl ?_ ?_ ?_ r h1
        · exact flattenRec_lists_avoid _ (fuel' + 1) drow lvl [] ([], [])
            (fun q hq => absurd hq (List.not_mem_nil q)) hdrow
        · exact extFree_aupd hE (gpv_keys_avoid s _ _ lvl hT)
        · rcases hctx with ⟨_, _, _, hppn, hip⟩ | ⟨_, _, _, hpp'⟩
          · rw [hppn]
            simpa using hip
          · intro hcon
            exact hpp' (List.append_eq_nil.1 hcon).1
    · rw [if_neg hc] at hr
      rcases List.mem_cons.1 hr with h1 | h1
      · rw [h1]
        exact hP (fuel' + 1) st drow E ip pp prid pos lvl hdrow hE hctx
      · simp at h1

/-- C3: for every document whose mapping keys avoid the reserved linkage
columns, under a well-formed schema (maximum length at least 15,
propagation targets off the reserved names), every emitted row carrying a
list index also carries a parent row id, and its identifier is exactly the
deterministic child hash of (parent row identifier, own normalized table
name, list index); re-normalizing the identical input with the identical
explicit root identifier yields identical output regardless of the random
seed; the child identifiers follow the nested hash formula; and changing
either the explicit root identifier or the root table name changes every
child identifier. -/
theorem C3_thm :
    (∀ (s : SchemaConf) (seed : Nat) (ctl : Nat → Bool) (item : JVal)
        (loadId tableName : String),
      15 ≤ s.maxLength → targetsAvoid s reservedLink = true →
      docAvoid reservedLink item = true →
      ∀ r ∈ normalizeDataItemCtl s seed ctl item loadId tableName, childHashInv r)
    ∧ (∀ s1 s2 : Nat, normalizeDataItem {} s1 (c3doc "rowid1") "load1" "table"
        = normalizeDataItem {} s2 (c3doc "rowid1") "load1" "table")
    ∧ ((normalizeDataItem {} 0 (c3doc "rowid1") "load1" "table").map
          (fun r => colStr r.2 "_dlt_id")
        = [some "rowid1", some (getChildRowHash "rowid1" "table__f" 0),
           some (getChildRowHash (getChildRowHash "rowid1" "table__f" 0) "table__f__l" 0),
           some (getChildRowHash (getChildRowHash "rowid1" "table__f" 0) "table__f__l" 1),
           some (getChildRowHash (getChildRowHash "rowid1" "table__f" 0) "table__f__l" 2),
           some (getChildRowHash (getChildRowHash "rowid1" "table__f" 0) "table__f__lo" 0),
           some (getChildRowHash (getChildRowHash "rowid1" "table__f" 0) "table__f__lo" 1),
           some (getChildRowHash (getChildRowHash "rowid1" "table__f" 0) "table__f__lo" 2)])
    ∧ ((((normalizeDataItem {} 0 (c3doc "rowid1") "load1" "table").drop 1).map
          (fun r => colStr r.2 "_dlt_id")).zip
        (((normalizeDataItem {} 0 (c3doc "rowid2") "load1" "table").drop 1).map
          (fun r => colStr r.2 "_dlt_id"))).all (fun pq => pq.1 != pq.2) = true
    ∧ ((((normalizeDataItem {} 0 (c3doc "rowid1") "load1" "table").drop 1).map
          (fun r => colStr r.2 "_dlt_id")).zip
        (((normalizeDataItem {} 0 (c3doc "rowid1") "load1" "other_table").drop 1).map
          (fun r => colStr r.2 "_dlt_id"))).all (fun pq => pq.1 != pq.2) = true := by
  refine ⟨?_, ?_, ?_, ?_, ?_⟩
  · intro s seed ctl item loadId tableName hml hT hdoc r hr
    refine normalizeRowF_all s seed ctl childHashInv (by decide) hml hT (by decide) (by decide)
      (fun fuel st drow E ip pp prid pos lvl h1 h2 _ =>
        processRow_childHashInv s seed fuel st drow E ip pp prid pos lvl hml h1 h2)
      _ _ _ _ _ _ _ _ _ ?_ ?_ ?_ r hr
    · exact pairsAvoid_aset (pairsAvoid_wrapRoot hdoc (by decide)) (by decide) rfl
    · intro p hp
      exact absurd hp (List.not_mem_nil p)
    · exact Or.inl ⟨rfl, rfl, rfl, rfl, List.cons_ne_nil _ _⟩
  · intro s1 s2
    rfl
  · rfl
  · decide
  · decide

/-- C3 witness: the invariant instantiated at a concrete schema, seed and
document, with every hypothesis discharged by evaluation. -/
theorem C3_witness :
    (15 ≤ ({} : SchemaConf).maxLength ∧ targetsAvoid {} reservedLink = true
      ∧ docAvoid reservedLink c4doc = true)
    ∧ ∀ r ∈ normalizeDataItemCtl {} 3 (fun _ => true) c4doc "load1" "table",
        childHashInv r :=
  ⟨⟨by decide, by decide, by decide⟩,
    C3_thm.1 {} 3 (fun _ => true) c4doc "load1" "table"
      (by decide) (by decide) (by decide)⟩

/-- C10: for every document whose mapping keys avoid the reserved linkage
columns, under a well-formed schema (maximum length at least 15, primary
key hints and propagation targets off the reserved names), every emitted
row matching a primary-key hint carries a row identifier and neither
linkage column, while every non-root row matching no hint carries both;
on the concrete primary-key scenario the matched child row still receives
the propagated root identifier column. -/
theorem C10_thm :
    (∀ (s : SchemaConf) (seed : Nat) (ctl : Nat → Bool) (item : JVal)
        (loadId tableName : String),
      15 ≤ s.maxLength → pkColsOK s = true → targetsAvoid s reservedLink = true →
      docAvoid reservedLink item = true →
      ∀ r ∈ normalizeDataItemCtl s seed ctl item loadId tableName, pkLinkInv s r)
    ∧ (∀ seed : Nat,
        (normalizeDataItem c10S seed c10doc "load1" "table").map
          (fun r => (r.1.1, r.1.2, colStr r.2 "_dlt_id", colStr r.2 "_dlt_parent_id",
            colInt r.2 "_dlt_list_idx", colStr r.2 "_dlt_root_id"))
        = [("table", none, some (mkRandomId seed 0), none, none, none),
           ("table__w_id", some "table", some (mkRandomId seed 1), none, none,
             some (mkRandomId seed 0)),
           ("table__w_id__wo_id", some "table__w_id",
             some (getChildRowHash (mkRandomId seed 1) "table__w_id__wo_id" 0),
             some (mkRandomId seed 1), some 0, some (mkRandomId seed 0)),
           ("table__w_id__wo_id", some "table__w_id",
             some (getChildRowHash (mkRandomId seed 1) "table__w_id__wo_id" 1),
             some (mkRandomId seed 1), some 1, some (mkRandomId seed 0)),
           ("table__w_id__wo_id", some "table__w_id",
             some (getChildRowHash (mkRandomId seed 1) "table__w_id__wo_id" 2),
             some (mkRandomId seed 1), some 2, some (mkRandomId seed 0))]) := by
  constructor
  · intro s seed ctl item loadId tableName hml hpk hT hdoc r hr
    refine normalizeRowF_all s seed ctl (pkLinkInv s) (by decide) hml hT (by decide) (by decide)
      (fun fuel st drow E ip pp prid pos lvl h1 h2 h3 =>
        processRow_pkLinkInv s seed fuel st drow E ip pp prid pos lvl hml hpk h1 h2 h3)
      _ _ _ _ _ _ _ _ _ ?_ ?_ ?_ r hr
    · exact pairsAvoid_aset (pairsAvoid_wrapRoot hdoc (by decide)) (by decide) rfl
    · intro p hp
      exact absurd hp (List.not_mem_nil p)
    · exact Or.inl ⟨rfl, rfl, rfl, rfl, List.cons_ne_nil _ _⟩
  · intro seed
    rfl

/-- C10 witness: the primary-key linking invariant instantiated at the
concrete primary-key schema and document, with every hypothesis
discharged by evaluation. -/
theorem C10_witness :
    (15 ≤ c10S.maxLength ∧ pkColsOK c10S = true ∧ targetsAvoid c10S reservedLink = true
      ∧ docAvoid reservedLink c10doc = true)
    ∧ ∀ r ∈ normalizeDataItemCtl c10S 5 (fun _ => true) c10doc "load1" "table",
        pkLinkInv c10S r :=
  ⟨⟨by decide, by decide, by decide, by decide⟩,
    C10_thm.1 c10S 5 (fun _ => true) c10doc "load1" "table"
      (by decide) (by decide) (by decide) (by decide)⟩

theorem gpv_keys_short (s : SchemaConf) (table : String) (row : Row) (lvl : Nat)
    (hT : targetsShort s = true) :
    ∀ p ∈ getPropagatedValues s table row lvl, p.1.length ≤ s.maxLength := by
  intro p hp
  rcases mem_getPropagatedValues s table row lvl hp with ⟨pr, hpr, he⟩
  rcases mem_effMappings s table lvl hpr with ⟨cfg, hs, hroot | ⟨tm, hl, hmem⟩⟩
  · unfold targetsShort at hT
    rw [hs] at hT
    simp only [Bool.and_eq_true] at hT
    have := (List.all_eq_true.1 hT.1) pr hroot
    rw [he]
    simpa using this
  · unfold targetsShort at hT
    rw [hs] at hT
    simp only [Bool.and_eq_true] at hT
    have htab := (List.all_eq_true.1 hT.2) (table, tm) (alook_mem hl)
    have := (List.all_eq_true.1 htab) pr hmem
    rw [he]
    simpa using this

theorem flattenOne_row_short {s : SchemaConf} (table : String)
    (rd : Nat → List String → Row × List (List String × List JVal) →
      List (String × JVal) → Row × List (List String × List JVal))
    (h6 : 6 ≤ s.maxLength)
    (hrd : ∀ (lvl' : Nat) (path' : List String) (acc' : Row × List (List String × List JVal))
      (fs' : List (String × JVal)), (∀ p ∈ acc'.1, p.1.length ≤ s.maxLength) →
      ∀ p ∈ (rd lvl' path' acc' fs').1, p.1.length ≤ s.maxLength)
    (lvl : Nat) (path : List String) (acc : Row × List (List String × List JVal))
    (k : String) (v : JVal) (hacc : ∀ p ∈ acc.1, p.1.length ≤ s.maxLength) :
    ∀ p ∈ (flattenOne s table rd lvl path acc k v).1, p.1.length ≤ s.maxLength := by
  have hnk : (if blankKey k then "_empty"
      else normalizeIdentifier s.maxLength k).length ≤ s.maxLength := by
    by_cases hbk : blankKey k = true
    · rw [if_pos hbk]
      have he : ("_empty" : String).length = 6 := rfl
      omega
    · rw [if_neg hbk]
      exact shortenIdentifier_length_le _ _ _ h6
  have hnn : (if path.isEmpty then
        (if blankKey k then "_empty" else normalizeIdentifier s.maxLength k)
      else shortenFragments s.maxLength
        (path ++ [if blankKey k then "_empty"
          else normalizeIdentifier s.maxLength k])).length ≤ s.maxLength := by
    by_cases hp : path.isEmpty = true
    · rw [if_pos hp]
      exact hnk
    · rw [if_neg hp]
      exact shortenIdentifier_length_le _ _ _ h6
  have hset : ∀ (x : JVal) (p : String × JVal),
      p ∈ aset acc.1 (if path.isEmpty then
        (if blankKey k then "_empty" else normalizeIdentifier s.maxLength k)
      else shortenFragments s.maxLength
        (path ++ [if blankKey k then "_empty"
          else normalizeIdentifier s.maxLength k])) x →
      p.1.length ≤ s.maxLength := by
    intro x p hp
    rcases mem_aset hp with h1 | h1
    · rw [h1]
      exact hnn
    · exact hacc p h1
  cases v with
  | null => exact hset _
  | bool b => exact hset _
  | num n => exact hset _
  | str c => exact hset _
  | arr es =>
    clear hnn hset
    simp only [flattenOne]
    revert hnk
    generalize (if blankKey k = true then "_empty" else normalizeIdentifier s.maxLength k) = nk0
    intro hnk0
    by_cases hp : path.isEmpty = true
    · rw [if_pos hp]
      split
      · intro p hmem
        rcases mem_aset hmem with h1 | h1
        · rw [h1]
          exact hnk0
        · exact hacc p h1
      · exact hacc
    · rw [if_neg hp]
      split
      · intro p hmem
        rcases mem_aset hmem with h1 | h1
        · rw [h1]
          exact shortenIdentifier_length_le _ _ _ h6
        · exact hacc p h1
      · exact hacc
  | obj fs =>
    clear hnn hset
    simp only [flattenOne]
    revert hnk
    generalize (if blankKey k = true then "_empty" else normalizeIdentifier s.maxLength k) = nk0
    intro hnk0
    by_cases hp : path.isEmpty = true
    · rw [if_pos hp]
      split
      · intro p hmem
        rcases mem_aset hmem with h1 | h1
        · rw [h1]
          exact hnk0
        · exact hacc p h1
      · exact hrd _ _ _ _ hacc
    · rw [if_neg hp]
      split
      · intro p hmem
        rcases mem_aset hmem with h1 | h1
        · rw [h1]
          exact shortenIdentifier_length_le _ _ _ h6
        · exact hacc p h1
      · exact hrd _ _ _ _ hacc

theorem flattenRec_row_short {s : SchemaConf} (table : String) (h6 : 6 ≤ s.maxLength) :
    ∀ (fuel : Nat) (fields : List (String × JVal)) (lvl : Nat) (path : List String)
      (acc : Row × List (List String × List JVal)),
      (∀ p ∈ acc.1, p.1.length ≤ s.maxLength) →
      ∀ p ∈ (flattenRec s table fuel lvl path acc fields).1, p.1.length ≤ s.maxLength := by
  intro fuel
  induction fuel with
  | zero =>
    intro fields lvl path acc hacc
    refine flattenStep_fold s table _ (fun acc => ∀ p ∈ acc.1, p.1.length ≤ s.maxLength)
      (fun _ => True) ?_ fields lvl path acc hacc (fun _ _ => trivial)
    intro lvl' path' acc' kv hacc' _
    exact flattenOne_row_short table _ h6 (fun _ _ acc'' _ h _ hm => h _ hm)
      lvl' path' acc' kv.1 kv.2 hacc'
  | succ fuel' ih =>
    intro fields lvl path acc hacc
    refine flattenStep_fold s table _ (fun acc => ∀ p ∈ acc.1, p.1.length ≤ s.maxLength)
      (fun _ => True) ?_ fields lvl path acc hacc (fun _ _ => trivial)
    intro lvl' path' acc' kv hacc' _
    exact flattenOne_row_short table _ h6
      (fun lvl'' path'' acc'' fs'' h => ih fs'' lvl'' path'' acc'' h)
      lvl' path' acc' kv.1 kv.2 hacc'

theorem addRowId_keys_short (s : SchemaConf) (seed : Nat) (st : NState) (table : String)
    (row : Row) (prid : Option String) (pos : Option Nat) (lvl : Nat)
    (hml : 14 ≤ s.maxLength) (hrow : ∀ p ∈ row, p.1.length ≤ s.maxLength) :
    ∀ p ∈ (addRowId s seed st table row prid pos lvl).2.1, p.1.length ≤ s.maxLength := by
  simp only [addRowId]
  split
  · intro p hp
    rcases mem_aset hp with h1 | h1
    · rw [h1]
      show ("_dlt_id" : String).length ≤ s.maxLength
      have he : ("_dlt_id" : String).length = 7 := rfl
      omega
    · exact hrow p h1
  · intro p hp
    rcases mem_aset hp with h1 | h1
    · rw [h1]
      show ("_dlt_id" : String).length ≤ s.maxLength
      have he : ("_dlt_id" : String).length = 7 := rfl
      omega
    · simp only [linkRow] at h1
      rcases mem_aset h1 with h2 | h2
      · rw [h2]
        show ("_dlt_list_idx" : String).length ≤ s.maxLength
        have he : ("_dlt_list_idx" : String).length = 13 := rfl
        omega
      · rcases mem_aset h2 with h3 | h3
        · rw [h3]
          show ("_dlt_parent_id" : String).length ≤ s.maxLength
          have he : ("_dlt_parent_id" : String).length = 14 := rfl
          omega
        · exact hrow p h3

theorem processRow_namesShort (s : SchemaConf) (seed fuel : Nat) (st : NState)
    (drow : List (String × JVal)) (E : Row) (ip pp : List String)
    (prid : Option String) (pos : Option Nat) (lvl : Nat)
    (hml : 14 ≤ s.maxLength) (hE : ∀ p ∈ E, p.1.length ≤ s.maxLength) :
    namesShort s (processRow s seed fuel st drow E ip pp prid pos lvl).1 := by
  have h6 : 6 ≤ s.maxLength := by omega
  have hfrow : ∀ p ∈ aupd (flattenRec s (shortenFragments s.maxLength (pp ++ ip)) fuel lvl []
      ([], []) drow).1 E, p.1.length ≤ s.maxLength := by
    intro p hp
    rcases mem_aupd hp with h1 | h1
    · exact flattenRec_row_short (shortenFragments s.maxLength (pp ++ ip)) h6 fuel drow lvl []
        ([], []) (fun q hq => absurd hq (List.not_mem_nil q)) p h1
    · exact hE p h1
  refine ⟨shortenIdentifier_length_le _ _ _ h6, ?_, ?_⟩
  · intro q hq
    have hq' : (if pp.isEmpty = true then (none : Option String)
        else some (shortenFragments s.maxLength pp)) = some q := hq
    by_cases hpp : pp.isEmpty = true
    · rw [if_pos hpp] at hq'
      exact Option.noConfusion hq'
    · rw [if_neg hpp] at hq'
      injection hq' with h'
      rw [← h']
      exact shortenIdentifier_length_le _ _ _ h6
  · intro p hp
    revert hp
    show p ∈ (processRow s seed fuel st drow E ip pp prid pos lvl).1.2 → p.1.length ≤ s.maxLength
    simp only [processRow]
    split
    · split
      · exact fun hp => addRowId_keys_short s seed st _ _ prid pos lvl hml hfrow p hp
      · exact fun hp => hfrow p hp
    · exact fun hp => addRowId_keys_short s seed st _ _ prid pos lvl hml hfrow p hp

theorem normElemsGo_allQ (recRow : RowCall) (P : NRow → Prop) (Q : Row → Prop)
    (hrec : ∀ (st : NState) (drow : List (String × JVal)) (E : Row) (ip pp : List String)
      (prid : Option String) (pos : Option Nat) (lvl : Nat), Q E →
      ∀ r ∈ (recRow st drow E ip pp prid pos lvl).1, P r) :
    ∀ (elems : List JVal) (st : NState) (idx : Nat) (E : Row) (ip pp : List String)
      (prid : String) (lvl : Nat), Q E →
      ∀ r ∈ (normElemsGo recRow st idx elems E ip pp prid lvl).1, P r := by
  intro elems
  induction elems with
  | nil =>
    intro st idx E ip pp prid lvl _ r hr
    simp [normElemsGo] at hr
  | cons e rest ih =>
    intro st idx E ip pp prid lvl hQE r hr
    simp only [normElemsGo] at hr
    rcases List.mem_append.1 hr with h1 | h1
    · exact hrec _ (wrapElem e) E ip pp (some prid) (some idx) lvl hQE r h1
    · exact ih _ (idx + 1) E ip pp prid lvl hQE r h1

theorem normListsGo_allQ (recRow : RowCall) (P : NRow → Prop) (Q : Row → Prop)
    (hrec : ∀ (st : NState) (drow : List (String × JVal)) (E : Row) (ip pp : List String)
      (prid : Option String) (pos : Option Nat) (lvl : Nat), Q E →
      ∀ r ∈ (recRow st drow E ip pp prid pos lvl).1, P r) :
    ∀ (lists : List (List String × List JVal)) (st : NState) (E : Row) (pp : List String)
      (prid : String) (lvl : Nat), Q E →
      ∀ r ∈ (normListsGo recRow st lists E pp prid lvl).1, P r := by
  intro lists
  induction lists with
  | nil =>
    intro st E pp prid lvl _ r hr
    simp [normListsGo] at hr
  | cons q rest ih =>
    intro st E pp prid lvl hQE r hr
    simp only [normListsGo] at hr
    rcases List.mem_append.1 hr with h1 | h1
    · exact normElemsGo_allQ recRow P Q hrec q.2 st 0 E q.1 pp prid (lvl + 1) hQE r h1
    · exact ih _ E pp prid lvl hQE r h1

theorem normalizeRowF_allQ (s : SchemaConf) (seed : Nat) (ctl : Nat → Bool)
    (P : NRow → Prop) (Q : Row → Prop)
    (hQ : ∀ (table : String) (row : Row) (lvl : Nat) (E : Row), Q E →
      Q (aupd E (getPropagatedValues s table row lvl)))
    (hP : ∀ (fuel : Nat) (st : NState) (drow : List (String × JVal)) (E : Row)
      (ip pp : List String) (prid : Option String) (pos : Option Nat) (lvl : Nat), Q E →
      P (processRow s seed fuel st drow E ip pp prid pos lvl).1) :
    ∀ (fuel : Nat) (st : NState) (drow : List (String × JVal)) (E : Row)
      (ip pp : List String) (prid : Option String) (pos : Option Nat) (lvl : Nat), Q E →
      ∀ r ∈ (normalizeRowF s seed ctl fuel st drow E ip pp prid pos lvl).1, P r := by
  intro fuel
  induction fuel with
  | zero =>
    intro st drow E ip pp prid pos lvl _ r hr
    simp [normalizeRowF] at hr
  | succ fuel' ih =>
    intro st drow E ip pp prid pos lvl hQE r hr
    simp only [normalizeRowF] at hr
    by_cases hc : ctl (processRow s seed (fuel' + 1) st drow E ip pp prid pos lvl).2.2.2.2.idx
    · rw [if_pos hc] at hr
      rcases List.mem_cons.1 hr with h1 | h1
      · rw [h1]
        exact hP (fuel' + 1) st drow E ip pp prid pos lvl hQE
      · refine normListsGo_allQ _ P Q
          (fun st' drow' E' ip' pp' prid' pos' lvl' h1' =>
            ih st' drow' E' ip' pp' prid' pos' lvl' h1') _ _ _ _ _ lvl ?_ r h1
        exact hQ _ _ lvl E hQE
    · rw [if_neg hc] at hr
      rcases List.mem_cons.1 hr with h1 | h1
      · rw [h1]
        exact hP (fuel' + 1) st drow E ip pp prid pos lvl hQE
      · simp at h1

/-- C8 (amended): under a well-formed schema (maximum length at least 14 and
propagation targets within the bound), every emitted table name, parent
table name and column name has length at most the configured maximum; a
name exceeding the maximum is truncated to maximum-minus-6 characters and
suffixed with the fixed-width deterministic tag computed from a hash of
the full un-shortened raw path; and two names long enough to be truncated
are separated after tag appension whenever their tag hashes differ. -/
theorem C8_thm :
    (∀ (s : SchemaConf) (seed : Nat) (ctl : Nat → Bool) (item : JVal)
        (loadId tableName : String),
      14 ≤ s.maxLength → targetsShort s = true →
      ∀ r ∈ normalizeDataItemCtl s seed ctl item loadId tableName, namesShort s r)
    ∧ (∀ (n raw : String) (maxL : Nat), maxL < n.length →
        shortenIdentifier n raw maxL = String.mk (n.data.take (maxL - 6)) ++ computeTag raw)
    ∧ (∀ (n1 r1 n2 r2 : String) (maxL : Nat), 6 ≤ maxL → maxL < n1.length →
        maxL < n2.length → computeTag r1 ≠ computeTag r2 →
        shortenIdentifier n1 r1 maxL ≠ shortenIdentifier n2 r2 maxL) := by
  refine ⟨?_, shortenIdentifier_of_long, shortenIdentifier_ne_of_tag_ne⟩
  intro s seed ctl item loadId tableName hml hT r hr
  refine normalizeRowF_allQ s seed ctl (namesShort s)
    (fun E => ∀ p ∈ E, p.1.length ≤ s.maxLength)
    (fun table row lvl E hE => ?_)
    (fun fuel st drow E ip pp prid pos lvl hE =>
      processRow_namesShort s seed fuel st drow E ip pp prid pos lvl hml hE)
    _ _ _ _ _ _ _ _ _ ?_ r hr
  · intro p hp
    rcases mem_aupd hp with h1 | h1
    · exact hE p h1
    · exact gpv_keys_short s table row lvl hT p h1
  · intro p hp
    exact absurd hp (List.not_mem_nil p)

/-- C8 witness: the name-length invariant at a 16-character naming
convention with a long root table name, plus the truncation formula and
tag separation at concrete long names, every hypothesis discharged by
evaluation. -/
theorem C8_witness :
    (14 ≤ c8S.maxLength ∧ targetsShort c8S = true
      ∧ ∀ r ∈ normalizeDataItemCtl c8S 0 (fun _ => true) c4doc "load1"
          "this_is_quite_a_long_table_name", namesShort c8S r)
    ∧ shortenIdentifier "abcdefghijklmnopqr" "raw_1" 16
        = String.mk (("abcdefghijklmnopqr" : String).data.take 10) ++ computeTag "raw_1"
    ∧ shortenIdentifier "abcdefghijklmnopqr" "a" 16 ≠ shortenIdentifier "abcdefghijklmnopqs" "b" 16 :=
  ⟨⟨by decide, by decide,
      C8_thm.1 c8S 0 (fun _ => true) c4doc "load1" "this_is_quite_a_long_table_name"
        (by decide) (by decide)⟩,
    C8_thm.2.1 "abcdefghijklmnopqr" "raw_1" 16 (by decide),
    C8_thm.2.2 "abcdefghijklmnopqr" "a" "abcdefghijklmnopqs" "b" 16
      (by decide) (by decide) (by decide) (by decide)⟩

theorem pbFrom_mono : ∀ {xs : List NRow} {seen seen' : List String},
    (∀ q ∈ seen, q ∈ seen') → pbFrom seen xs → pbFrom seen' xs := by
  intro xs
  induction xs with
  | nil =>
    intro seen seen' _ _
    trivial
  | cons r rest ih =>
    intro seen seen' hsub h
    refine ⟨fun q hq => hsub q (h.1 q hq), ?_⟩
    refine ih ?_ h.2
    intro q hq
    rcases List.mem_cons.1 hq with h1 | h1
    · rw [h1]
      exact List.mem_cons_self _ _
    · exact List.mem_cons.2 (Or.inr (hsub q h1))

theorem pbFrom_append : ∀ {xs ys : List NRow} {seen : List String},
    pbFrom seen xs → pbFrom (pbSeen seen xs) ys → pbFrom seen (xs ++ ys) := by
  intro xs
  induction xs with
  | nil =>
    intro ys seen _ hy
    exact hy
  | cons r rest ih =>
    intro ys seen hx hy
    exact ⟨hx.1, ih hx.2 hy⟩

theorem mem_pbSeen : ∀ {xs : List NRow} {seen : List String} {q : String},
    q ∈ seen → q ∈ pbSeen seen xs := by
  intro xs
  induction xs with
  | nil =>
    intro seen q h
    exact h
  | cons r rest ih =>
    intro seen q h
    exact ih (List.mem_cons.2 (Or.inr h))

theorem normElemsGo_pb (s : SchemaConf) (recRow : RowCall)
    (hrec : ∀ (st : NState) (drow : List (String × JVal)) (E : Row) (ip pp : List String)
      (prid : Option String) (pos : Option Nat) (lvl : Nat) (seen : List String),
      (pp ≠ [] → shortenFragments s.maxLength pp ∈ seen) →
      pbFrom seen (recRow st drow E ip pp prid pos lvl).1) :
    ∀ (elems : List JVal) (st : NState) (idx : Nat) (E : Row) (ip pp : List String)
      (prid : String) (lvl : Nat) (seen : List String),
      (pp ≠ [] → shortenFragments s.maxLength pp ∈ seen) →
      pbFrom seen (normElemsGo recRow st idx elems E ip pp prid lvl).1 := by
  intro elems
  induction elems with
  | nil =>
    intro st idx E ip pp prid lvl seen _
    trivial
  | cons e rest ih =>
    intro st idx E ip pp prid lvl seen hseen
    exact pbFrom_append
      (hrec st (wrapElem e) E ip pp (some prid) (some idx) lvl seen hseen)
      (ih (recRow st (wrapElem e) E ip pp (some prid) (some idx) lvl).2 (idx + 1) E ip pp prid
        lvl (pbSeen seen (recRow st (wrapElem e) E ip pp (some prid) (some idx) lvl).1)
        (fun hne => mem_pbSeen (hseen hne)))

theorem normListsGo_pb (s : SchemaConf) (recRow : RowCall)
    (hrec : ∀ (st : NState) (drow : List (String × JVal)) (E : Row) (ip pp : List String)
      (prid : Option String) (pos : Option Nat) (lvl : Nat) (seen : List String),
      (pp ≠ [] → shortenFragments s.maxLength pp ∈ seen) →
      pbFrom seen (recRow st drow E ip pp prid pos lvl).1) :
    ∀ (lists : List (List String × List JVal)) (st : NState) (E : Row) (pp : List String)
      (prid : String) (lvl : Nat) (seen : List String),
      (pp ≠ [] → shortenFragments s.maxLength pp ∈ seen) →
      pbFrom seen (normListsGo recRow st lists E pp prid lvl).1 := by
  intro lists
  induction lists with
  | nil =>
    intro st E pp prid lvl seen _
    trivial
  | cons q rest ih =>
    intro st E pp prid lvl seen hseen
    exact pbFrom_append
      (normElemsGo_pb s recRow hrec q.2 st 0 E q.1 pp prid (lvl + 1) seen hseen)
      (ih (normElemsGo recRow st 0 q.2 E q.1 pp prid (lvl + 1)).2 E pp prid lvl
        (pbSeen seen (normElemsGo recRow st 0 q.2 E q.1 pp prid (lvl + 1)).1)
        (fun hne => mem_pbSeen (hseen hne)))

theorem normalizeRowF_pb (s : SchemaConf) (seed : Nat) (ctl : Nat → Bool) :
    ∀ (fuel : Nat) (st : NState) (drow : List (String × JVal)) (E : Row)
      (ip pp : List String) (prid : Option String) (pos : Option Nat) (lvl : Nat)
      (seen : List String),
      (pp ≠ [] → shortenFragments s.maxLength pp ∈ seen) →
      pbFrom seen (normalizeRowF s seed ctl fuel st drow E ip pp prid pos lvl).1 := by
  intro fuel
  induction fuel with
  | zero =>
    intro st drow E ip pp prid pos lvl seen _
    trivial
  | succ fuel' ih =>
    intro st drow E ip pp prid pos lvl seen hseen
    have hpar : ∀ q, (if pp.isEmpty = true then (none : Option String)
        else some (shortenFragments s.maxLength pp)) = some q → q ∈ seen := by
      intro q hq
      by_cases hpp : pp.isEmpty = true
      · rw [if_pos hpp] at hq
        exact Option.noConfusion hq
      · rw [if_neg hpp] at hq
        injection hq with h'
        rw [← h']
        refine hseen ?_
        intro hcon
        rw [hcon] at hpp
        exact hpp rfl
    show pbFrom seen (normalizeRowF s seed ctl (fuel' + 1) st drow E ip pp prid pos lvl).1
    simp only [normalizeRowF]
    by_cases hc : ctl (processRow s seed (fuel' + 1) st drow E ip pp prid pos lvl).2.2.2.2.idx
    · rw [if_pos hc]
      refine ⟨fun q hq => hpar q hq, ?_⟩
      refine normListsGo_pb s _ (fun st' drow' E' ip' pp' prid' pos' lvl' seen' hseen' =>
        ih st' drow' E' ip' pp' prid' pos' lvl' seen' hseen') _ _ _ _ _ lvl _ ?_
      intro _
      exact List.mem_cons_self _ _
    · rw [if_neg hc]
      exact ⟨fun q hq => hpar q hq, trivial⟩

/-- C2: for every input document, the emitted sequence satisfies the
parents-before-children law (scanning left to right, every row naming a
parent table is preceded by a row of that table); the first emitted row is
the root row, whose table identity has no parent; and on the concrete
ordering document the (table, parent) sequence equals the expected
source-field-order enumeration, siblings in source order. -/
theorem C2_thm :
    (∀ (s : SchemaConf) (seed : Nat) (ctl : Nat → Bool) (item : JVal)
        (loadId tableName : String),
      pbFrom [] (normalizeDataItemCtl s seed ctl item loadId tableName))
    ∧ (∀ (s : SchemaConf) (seed : Nat) (ctl : Nat → Bool) (item : JVal)
        (loadId tableName : String),
      ((normalizeDataItemCtl s seed ctl item loadId tableName).map (fun r => r.1.2)).head?
        = some none)
    ∧ (∀ seed : Nat, (normalizeDataItem {} seed c2doc "load1" "table").map
          (fun r => (r.1.1, r.1.2))
        = [("table", none), ("table__f", some "table"), ("table__f__l", some "table__f"),
           ("table__f__o", some "table__f"), ("table__f__b__a", some "table__f"),
           ("table__d__a", some "table"), ("table__d__b__a", some "table"),
           ("table__e", some "table"), ("table__e__o", some "table__e"),
           ("table__e__b__a", some "table__e")]) := by
  refine ⟨?_, ?_, ?_⟩
  · intro s seed ctl item loadId tableName
    exact normalizeRowF_pb s seed ctl (jsize item + 1) ⟨0, 0⟩ _ [] _ [] none none 0 []
      (fun hcon => absurd rfl hcon)
  · intro s seed ctl item loadId tableName
    show (((normalizeRowF s seed ctl (jsize item + 1) ⟨0, 0⟩
        (aset (wrapRoot item) "_dlt_load_id" (JVal.str loadId)) []
        [if blankKey tableName then "_empty" else normalizeIdentifier s.maxLength tableName]
        [] none none 0).1).map (fun r => r.1.2)).head? = some none
    simp only [normalizeRowF]
    split <;> split <;> rfl
  · intro seed
    rfl
